import Mathlib

/-!
KTL runtime support: hashing engine and pool allocator.

A shallow embedding of `include/hash.hpp`, `runtime/src/heap.cpp` and
`runtime/include/flag_set.hpp`.

* Machine integers are natural numbers; every operation that can leave the
  64-bit range (`*`, `+`, `<<`) is followed by an explicit reduction modulo
  `2 ^ 64` (`u64`).  `size_t` is the 64-bit `size_t` of the x64 kernel target.
* A pointer to bytes is a function from byte offsets to bytes.
* A value of an integer type narrower than 64 bits is its bit pattern; the
  conversions between integer types (integral promotion, conversion back to
  the stored type, sign extension) are explicit.
* The loop of `count_trailing_zeros` takes fuel and answers `none` when the
  fuel runs out before the loop ends.
* The kernel primitives (`ExAllocatePoolWithTag`, `ExFreePoolWithTag`,
  `get_current_irql`) are parameters; every call of a primitive is recorded in
  the trace of the run, and a failed `crt_assert_with_msg` ends the run.
-/

namespace ktl

/-! ## Machine words -/

/-- Reduction to the range of `uint64_t`. -/
def u64 (n : Nat) : Nat := n % 2 ^ 64

/-- One byte of memory (`uint8_t`). -/
abbrev Byte := Fin 256

/-- A `const void*` seen as bytes: `ptr i` is the byte at offset `i`. -/
abbrev BytePtr := Nat → Byte

/-! ## `hash_bytes` (hash.hpp, lines 9-54) -/

/-- The constant `m` of `hash_bytes`. -/
def hash_bytes_m : Nat := 0xc6a4a7935bd1e995

/-- The constant `seed` of `hash_bytes`. -/
def hash_bytes_seed : Nat := 0xe17a1465

/-- The constant `r` of `hash_bytes`. -/
def hash_bytes_r : Nat := 47

/-- Modelled from the spec: `unaligned_load<uint64_t>` is declared in a header
that is not among the sources; the spec reads each 8-byte block as one 64-bit
word, and the kernel targets are little-endian, so the byte at offset `off + i`
is the `i`-th least significant byte of the word. -/
def unaligned_load (ptr : BytePtr) (off : Nat) : Nat :=
  (ptr off).val
    + (ptr (off + 1)).val * 2 ^ 8
    + (ptr (off + 2)).val * 2 ^ 16
    + (ptr (off + 3)).val * 2 ^ 24
    + (ptr (off + 4)).val * 2 ^ 32
    + (ptr (off + 5)).val * 2 ^ 40
    + (ptr (off + 6)).val * 2 ^ 48
    + (ptr (off + 7)).val * 2 ^ 56

/-- The body of the block loop (lines 19-26) for the block word `k0`:
`k *= m; k ^= k >> r; k *= m; h ^= k; h *= m`. -/
def hash_bytes_block (h k0 : Nat) : Nat :=
  let k := u64 (k0 * hash_bytes_m)
  let k := k ^^^ (k >>> hash_bytes_r)
  let k := u64 (k * hash_bytes_m)
  let h := h ^^^ k
  u64 (h * hash_bytes_m)

/-- The loop `for (i = 0; i < n_blocks; ++i)` (lines 18-27); `data64 + i` is
byte offset `8 * i`. -/
def hash_bytes_loop (ptr : BytePtr) (n_blocks : Nat) (h : Nat) : Nat :=
  (List.range n_blocks).foldl
    (fun h i => hash_bytes_block h (unaligned_load ptr (8 * i))) h

/-- Label `case 1` of the switch (lines 43-45): the last byte, then `h *= m`. -/
def hash_bytes_case1 (data8 : BytePtr) (h : Nat) : Nat :=
  let h := h ^^^ (data8 0).val
  u64 (h * hash_bytes_m)

/-- Label `case 2` (lines 41-42), falling through to `case 1`. -/
def hash_bytes_case2 (data8 : BytePtr) (h : Nat) : Nat :=
  hash_bytes_case1 data8 (h ^^^ u64 ((data8 1).val <<< 8))

/-- Label `case 3` (lines 39-40), falling through to `case 2`. -/
def hash_bytes_case3 (data8 : BytePtr) (h : Nat) : Nat :=
  hash_bytes_case2 data8 (h ^^^ u64 ((data8 2).val <<< 16))

/-- Label `case 4` (lines 37-38), falling through to `case 3`. -/
def hash_bytes_case4 (data8 : BytePtr) (h : Nat) : Nat :=
  hash_bytes_case3 data8 (h ^^^ u64 ((data8 3).val <<< 24))

/-- Label `case 5` (lines 35-36), falling through to `case 4`. -/
def hash_bytes_case5 (data8 : BytePtr) (h : Nat) : Nat :=
  hash_bytes_case4 data8 (h ^^^ u64 ((data8 4).val <<< 32))

/-- Label `case 6` (lines 33-34), falling through to `case 5`. -/
def hash_bytes_case6 (data8 : BytePtr) (h : Nat) : Nat :=
  hash_bytes_case5 data8 (h ^^^ u64 ((data8 5).val <<< 40))

/-- Label `case 7` (lines 31-32), falling through to `case 6`. -/
def hash_bytes_case7 (data8 : BytePtr) (h : Nat) : Nat :=
  hash_bytes_case6 data8 (h ^^^ u64 ((data8 6).val <<< 48))

/-- The statement `switch (len & 7U)` (lines 30-48) with its fall-through
labels; `default` leaves `h` as it is. -/
def hash_bytes_switch (data8 : BytePtr) (sel : Nat) (h : Nat) : Nat :=
  match sel with
  | 7 => hash_bytes_case7 data8 h
  | 6 => hash_bytes_case6 data8 h
  | 5 => hash_bytes_case5 data8 h
  | 4 => hash_bytes_case4 data8 h
  | 3 => hash_bytes_case3 data8 h
  | 2 => hash_bytes_case2 data8 h
  | 1 => hash_bytes_case1 data8 h
  | _ => h

/-- The closing statements (lines 50-52): `h ^= h >> r; h *= m; h ^= h >> r`. -/
def hash_bytes_final (h : Nat) : Nat :=
  let h := h ^^^ (h >>> hash_bytes_r)
  let h := u64 (h * hash_bytes_m)
  h ^^^ (h >>> hash_bytes_r)

/-- The function `hash_bytes(ptr, len)`. -/
def hash_bytes (ptr : BytePtr) (len : Nat) : Nat :=
  let h := hash_bytes_seed ^^^ u64 (len * hash_bytes_m)
  let n_blocks := len / 8
  let h := hash_bytes_loop ptr n_blocks h
  let data8 : BytePtr := fun j => ptr (8 * n_blocks + j)
  let h := hash_bytes_switch data8 (len &&& 7) h
  hash_bytes_final h

/-! ### The reference computation of the specification -/

/-- The little-endian value of a sequence of bytes. -/
def le_word : List Byte → Nat
  | [] => 0
  | b :: bs => b.val + 256 * le_word bs

/-- Mixing of one block word `k` into `h`, all arithmetic modulo `2 ^ 64`:
`k *= m`, `k ^= k >> 47`, `k *= m`, `h ^= k`, `h *= m`. -/
def murmur_mix (h k : Nat) : Nat :=
  let k1 := (k * 0xc6a4a7935bd1e995) % 2 ^ 64
  let k2 := k1 ^^^ (k1 / 2 ^ 47)
  let k3 := (k2 * 0xc6a4a7935bd1e995) % 2 ^ 64
  ((h ^^^ k3) * 0xc6a4a7935bd1e995) % 2 ^ 64

/-- The trailing bytes XORed into `h`, byte `i` shifted left by `8 * i` bits. -/
def murmur_tail (h : Nat) (tail : List Byte) : Nat :=
  (List.range tail.length).foldl
    (fun acc i => acc ^^^ ((tail.getD i 0).val * 2 ^ (8 * i))) h

/-- The avalanche `h ^= h >> 47; h *= m; h ^= h >> 47`. -/
def murmur_avalanche (h : Nat) : Nat :=
  let h1 := h ^^^ (h / 2 ^ 47)
  let h2 := (h1 * 0xc6a4a7935bd1e995) % 2 ^ 64
  h2 ^^^ (h2 / 2 ^ 47)

/-- The reference MurmurHash64A of a byte sequence, as the specification words
it, with `m = 0xc6a4a7935bd1e995`, `seed = 0xe17a1465` and `r = 47`. -/
def MurmurHash64A (data : List Byte) : Nat :=
  let len := data.length
  let h0 := 0xe17a1465 ^^^ ((len * 0xc6a4a7935bd1e995) % 2 ^ 64)
  let blocks := (List.range (len / 8)).map
    (fun j => le_word ((data.drop (8 * j)).take 8))
  let h1 := blocks.foldl murmur_mix h0
  let tail := data.drop (8 * (len / 8))
  let h2 := if len % 8 = 0 then h1
    else ((murmur_tail h1 tail) * 0xc6a4a7935bd1e995) % 2 ^ 64
  murmur_avalanche h2

/-- The first `len` bytes behind a pointer. -/
def bytes_at (ptr : BytePtr) (len : Nat) : List Byte :=
  (List.range len).map ptr

/-- A byte sequence seen through a pointer to its first byte (bytes behind the
end read as `0`; `hash_bytes` does not read them). -/
def ptr_of (data : List Byte) : BytePtr := fun i => data.getD i 0


/-! ## `hash_int` and the pointer hashes (hash.hpp, lines 56-68 and 127-146) -/

/-- Modelled from the spec: `rotr` is declared in a header that is not among
the sources; the spec and the comment in `hash_int` make it a rotation to the
right of the 64-bit word `x` by `k` bits, `(x >> k) | (x << (64 - k))`. -/
def rotr (x k : Nat) : Nat := u64 ((x >>> k) ||| (x <<< (64 - k)))

/-- The function `hash_int(x)`. -/
def hash_int (x : Nat) : Nat :=
  let h1 := u64 (x * 0xA24BAED4963EE407)
  let h2 := u64 (rotr x 32 * 0x9FB21C651E98DF25)
  let h := rotr (u64 (h1 + h2)) 32
  h

/-- The `rotate_right(x, 32)` of the specification on a 64-bit word: the upper half
moves to the lower half and the lower half to the upper half. -/
def rotate_right_32 (x : Nat) : Nat := x / 2 ^ 32 + (x % 2 ^ 32) * 2 ^ 32

/-- Modelled from the spec: `unique_ptr` is declared in `smart_pointer.hpp`,
which is not among the sources; the hash only uses `get()`, the raw address
of the owned object. -/
structure unique_ptr where
  /-- The address of the owned object. -/
  get : Nat
  deriving DecidableEq, Repr

/-- Modelled from the spec: `shared_ptr` is declared in `smart_pointer.hpp`,
which is not among the sources; the hash only uses `get()`, the raw address
of the owned object. -/
structure shared_ptr where
  /-- The address of the owned object. -/
  get : Nat
  deriving DecidableEq, Repr

/-- The call operator `hash<Ty*>::operator()(ptr)` (lines 127-132). -/
def hash_raw_ptr (ptr : Nat) : Nat := hash_int ptr

/-- The call operator `hash<unique_ptr<Ty, Dx>>::operator()(ptr)` (lines 134-139). -/
def hash_unique_ptr (ptr : unique_ptr) : Nat := hash_int ptr.get

/-- The call operator `hash<shared_ptr<Ty>>::operator()(ptr)` (lines 141-146). -/
def hash_shared_ptr (ptr : shared_ptr) : Nat := hash_int ptr.get

/-! ## The pool allocator (heap.cpp) -/

/-- Modelled from the spec: `pool_type_t` names the `POOL_TYPE` enumeration of
the kernel, which is declared outside the sources. The seven cache-aligned
categories are the enumerators listed in `get_max_alignment_for_pool`; the
others are the remaining categories of the enumeration (ordinary, paged,
session-scoped and no-execute variants). -/
inductive pool_type_t where
  | NonPagedPool
  | PagedPool
  | NonPagedPoolMustSucceed
  | DontUseThisType
  | NonPagedPoolCacheAligned
  | PagedPoolCacheAligned
  | NonPagedPoolCacheAlignedMustS
  | MaxPoolType
  | NonPagedPoolSession
  | PagedPoolSession
  | NonPagedPoolMustSucceedSession
  | DontUseThisTypeSession
  | NonPagedPoolCacheAlignedSession
  | PagedPoolCacheAlignedSession
  | NonPagedPoolCacheAlignedMustSSession
  | NonPagedPoolNx
  | NonPagedPoolNxCacheAligned
  | NonPagedPoolSessionNx
  deriving DecidableEq, Repr

/-- The constants of `heap.hpp` and of the kernel headers that `heap.cpp` uses;
their declarations are not among the sources, so they are parameters. -/
structure heap_constants where
  /-- The alignment every pool category guarantees. -/
  DEFAULT_ALLOCATION_ALIGNMENT : Nat
  /-- The alignment the cache-aligned pool categories guarantee. -/
  CACHE_LINE_ALLOCATION_ALIGNMENT : Nat
  /-- The largest alignment the architecture supports for an allocation. -/
  MAX_ALLOCATION_ALIGNMENT : Nat
  /-- The dispatch ceiling of the priority level. -/
  DISPATCH_LEVEL : Nat
  deriving DecidableEq, Repr

/-- The constants of the x64 kernel target: 16-byte default alignment, 64-byte
cache lines, 4096-byte pages, `DISPATCH_LEVEL = 2`. -/
def x64_constants : heap_constants :=
  { DEFAULT_ALLOCATION_ALIGNMENT := 16
    CACHE_LINE_ALLOCATION_ALIGNMENT := 64
    MAX_ALLOCATION_ALIGNMENT := 4096
    DISPATCH_LEVEL := 2 }

/-- The request of an allocation; the fields in the order of the structured
binding in `allocate_impl` (line 33). -/
structure alloc_request where
  bytes_count : Nat
  pool_type : pool_type_t
  alignment : Nat
  pool_tag : Nat
  deriving DecidableEq, Repr

/-- The request of a release; a null `memory_block` is `0`. -/
structure free_request where
  memory_block : Nat
  pool_tag : Nat
  deriving DecidableEq, Repr

/-- The kernel as the allocator sees it: the current priority level and the
answer of the primitive allocator to a call (`0` is the null handle). -/
structure Kernel where
  get_current_irql : Nat
  ExAllocatePoolWithTag : pool_type_t → Nat → Nat → Nat

/-- A call of a kernel primitive, with its arguments. -/
inductive KernelCall where
  | ExAllocatePoolWithTag (pool_type : pool_type_t) (bytes_count pool_tag : Nat)
  | ExFreePoolWithTag (memory_block pool_tag : Nat)
  deriving DecidableEq, Repr

/-- How a run ends: it returns a value, a `crt_assert_with_msg` fails with its
message, or `bad_alloc` is thrown. -/
inductive Outcome (α : Type) where
  | returned (value : α)
  | assertion_failed (msg : String)
  | thrown_bad_alloc
  deriving DecidableEq, Repr

/-- A run of a piece of code: the calls of kernel primitives it made, in
order, and how it ended. -/
structure Run (α : Type) where
  calls : List KernelCall
  outcome : Outcome α
  deriving DecidableEq, Repr

/-- A run that returns at once. -/
def Run.pure {α : Type} (value : α) : Run α := ⟨[], .returned value⟩

/-- Sequencing: the second part runs only if the first returns. -/
def Run.bind {α β : Type} (r : Run α) (f : α → Run β) : Run β :=
  match r.outcome with
  | .returned value => ⟨r.calls ++ (f value).calls, (f value).outcome⟩
  | .assertion_failed msg => ⟨r.calls, .assertion_failed msg⟩
  | .thrown_bad_alloc => ⟨r.calls, .thrown_bad_alloc⟩

instance : Monad Run where
  pure := Run.pure
  bind := Run.bind

/-- Modelled from the spec: the macro `crt_assert_with_msg(cond, msg)` is
defined outside the sources; the spec makes a failed assertion fatal and
non-recoverable, so the run ends there. -/
def crt_assert_with_msg (cond : Prop) [Decidable cond] (msg : String) : Run Unit :=
  if cond then ⟨[], .returned ()⟩ else ⟨[], .assertion_failed msg⟩

/-- The statement `throw bad_alloc{}`. -/
def throw_bad_alloc {α : Type} : Run α := ⟨[], .thrown_bad_alloc⟩

/-- A call of the primitive allocator. -/
def ExAllocatePoolWithTag (k : Kernel) (pool_type : pool_type_t)
    (bytes_count pool_tag : Nat) : Run Nat :=
  ⟨[.ExAllocatePoolWithTag pool_type bytes_count pool_tag],
    .returned (k.ExAllocatePoolWithTag pool_type bytes_count pool_tag)⟩

/-- A call of the primitive free operation. -/
def ExFreePoolWithTag (memory_block pool_tag : Nat) : Run Unit :=
  ⟨[.ExFreePoolWithTag memory_block pool_tag], .returned ()⟩

/-- The function `crt::get_max_alignment_for_pool` (lines 12-30). -/
def get_max_alignment_for_pool (c : heap_constants) (pool_type : pool_type_t) : Nat :=
  match pool_type with
  | .NonPagedPoolCacheAligned
  | .PagedPoolCacheAligned
  | .NonPagedPoolCacheAlignedMustS
  | .NonPagedPoolCacheAlignedSession
  | .PagedPoolCacheAlignedSession
  | .NonPagedPoolCacheAlignedMustSSession
  | .NonPagedPoolNxCacheAligned => c.CACHE_LINE_ALLOCATION_ALIGNMENT
  | _ => c.DEFAULT_ALLOCATION_ALIGNMENT

/-- The function `crt::allocate_impl` (lines 32-52); the message of the second
assertion is cut after its first clause. -/
def allocate_impl (c : heap_constants) (k : Kernel) (request : alloc_request) : Run Nat := do
  let bytes_count := request.bytes_count
  let pool_type := request.pool_type
  let alignment := request.alignment
  let pool_tag := request.pool_tag
  crt_assert_with_msg (pool_tag ≠ 0) "pool tag must not be equal to zero"
  crt_assert_with_msg (k.get_current_irql ≤ c.DISPATCH_LEVEL)
    "memory allocations are disabled at IRQL > DISPATCH_LEVEL"
  if request.alignment ≤ get_max_alignment_for_pool c pool_type then
    ExAllocatePoolWithTag k pool_type bytes_count pool_tag
  else
    crt_assert_with_msg (alignment ≤ c.MAX_ALLOCATION_ALIGNMENT)
      "allocation alignment is too large"
    let page_aligned_size := max bytes_count c.MAX_ALLOCATION_ALIGNMENT
    ExAllocatePoolWithTag k pool_type page_aligned_size pool_tag

/-- The function `crt::deallocate_impl` (lines 54-58). -/
def deallocate_impl (memory_block pool_tag : Nat) : Run Unit := do
  crt_assert_with_msg (memory_block ≠ 0) "invalid memory block"
  crt_assert_with_msg (pool_tag ≠ 0) "pool tag must not be equal to zero"
  ExFreePoolWithTag memory_block pool_tag

/-- The specialisation `allocate_memory<OnAllocationFailure::DoNothing>`
(lines 61-65). -/
def allocate_memory_DoNothing (c : heap_constants) (k : Kernel)
    (request : alloc_request) : Run Nat :=
  allocate_impl c k request

/-- The specialisation `allocate_memory<OnAllocationFailure::ThrowException>`
(lines 67-75). -/
def allocate_memory_ThrowException (c : heap_constants) (k : Kernel)
    (request : alloc_request) : Run Nat := do
  let memory ← allocate_impl c k request
  if memory = 0 then
    throw_bad_alloc
  else
    return memory

/-- The function `deallocate_memory` (lines 77-81). -/
def deallocate_memory (request : free_request) : Run Unit :=
  let ptr := request.memory_block
  if ptr ≠ 0 then
    deallocate_impl ptr request.pool_tag
  else
    pure ()

/-- A run is fatal when it ends in a failed assertion. -/
def Run.fatal {α : Type} (r : Run α) : Prop :=
  ∃ msg, r.outcome = .assertion_failed msg

/-- A kernel at passive level whose primitive allocator answers every call
with the page-aligned address `0x3000`. -/
def kernel_ok : Kernel :=
  { get_current_irql := 0
    ExAllocatePoolWithTag := fun _ _ _ => 0x3000 }

/-- A kernel at passive level whose primitive allocator is exhausted. -/
def kernel_exhausted : Kernel :=
  { get_current_irql := 0
    ExAllocatePoolWithTag := fun _ _ _ => 0 }

/-! ## Integer types and the integer hashes (hash.hpp, lines 70-81 and 148-179) -/

/-- Modelled from the spec: the integer types of the language are not declared
in the sources. On the x64 kernel target every integer type that `HASH_INT`
lists, or that underlies an enumeration, is one of these eight: 8, 16, 32 or 64
bits wide, signed (two's complement) or unsigned. A value of such a type is
given by its bit pattern, a natural number below `2 ^ bits`. -/
inductive integral_type where
  | int8
  | uint8
  | int16
  | uint16
  | int32
  | uint32
  | int64
  | uint64
  deriving DecidableEq, Repr

/-- The width of an integer type. -/
def integral_type.bits : integral_type → Nat
  | .int8 | .uint8 => 8
  | .int16 | .uint16 => 16
  | .int32 | .uint32 => 32
  | .int64 | .uint64 => 64

/-- Whether an integer type is signed. -/
def integral_type.is_signed : integral_type → Bool
  | .int8 | .int16 | .int32 | .int64 => true
  | .uint8 | .uint16 | .uint32 | .uint64 => false

/-- The bit pattern of a value of type `Ty` extended to 64 bits: with copies
of the sign bit for a negative value of a signed type, with zeros otherwise. -/
def sign_extend_64 (Ty : integral_type) (v : Nat) : Nat :=
  if Ty.is_signed && v.testBit (Ty.bits - 1) then v + (2 ^ 64 - 2 ^ Ty.bits) else v

/-- The conversion `static_cast<dst>(v)` of a value `v` of type `src`: the
value is kept modulo `2 ^ dst.bits`. -/
def convert (src dst : integral_type) (v : Nat) : Nat :=
  sign_extend_64 src v % 2 ^ dst.bits

/-- The conversion `static_cast<uint64_t>(obj)` of a value of type `Ty`. -/
def static_cast_uint64 (Ty : integral_type) (obj : Nat) : Nat :=
  convert Ty .uint64 obj

/-- The call operator that `HASH_INT(Ty)` defines (lines 156-162). -/
def HASH_INT (Ty : integral_type) (obj : Nat) : Nat :=
  hash_int (static_cast_uint64 Ty obj)

/-- The call operator `hash<Enum>::operator()(e)` (lines 148-154) for an
enumeration with underlying type `underlying_t`; `e` is the bit pattern of
`static_cast<underlying_t>(e)`. -/
def hash_enum (underlying_t : integral_type) (e : Nat) : Nat :=
  HASH_INT underlying_t e

/-- The call operator of the generic wrapper (lines 72-81): the base hash,
re-mixed through `hash_int`. -/
def generic_hash {α : Type} (base_hash : α → Nat) (obj : α) : Nat :=
  let result := base_hash obj
  hash_int result

/-! ## `flag_set` (flag_set.hpp)

An enumeration `Enum` enters through its underlying type `value_type`; a flag
and the stored `m_value` are bit patterns below `2 ^ value_type.bits`. Every
operator works on the promoted operands, as in the language: an operand
narrower than `int` is first converted to `int`, and the result is converted
back where it is stored or returned as `value_type`. -/

/-- The integral promotion of an integer type: a type narrower than `int`
(32 bits on this target) is promoted to `int`. -/
def promoted : integral_type → integral_type
  | .int8 | .uint8 | .int16 | .uint16 => .int32
  | .int32 => .int32
  | .uint32 => .uint32
  | .int64 => .int64
  | .uint64 => .uint64

/-- The conversion of a `value_type` operand to its promoted type. -/
def to_promoted (value_type : integral_type) (v : Nat) : Nat :=
  convert value_type (promoted value_type) v

/-- The conversion of a value of the promoted type back to `value_type`. -/
def to_value_type (value_type : integral_type) (x : Nat) : Nat :=
  convert (promoted value_type) value_type x

/-- The operator `~x` in the integer type `T`. -/
def bit_not (T : integral_type) (x : Nat) : Nat := 2 ^ T.bits - 1 - x

/-- The expression `x - 1` in the integer type `T`, wrapping around at `0`. -/
def minus_one (T : integral_type) (x : Nat) : Nat := (x + (2 ^ T.bits - 1)) % 2 ^ T.bits

/-- The operator `x >> c` in the integer type `T`: for a signed type the sign
bit is copied into the vacated bits (arithmetic shift), for an unsigned type
zeros are shifted in. -/
def shift_right (T : integral_type) (x c : Nat) : Nat :=
  if T.is_signed && x.testBit (T.bits - 1) then
    (x + (2 ^ (T.bits + c) - 2 ^ T.bits)) >>> c
  else
    x >>> c

/-- The class `flag_set<Enum>`: the stored bit pattern. -/
structure flag_set where
  m_value : Nat
  deriving DecidableEq, Repr

/-- The constructor `flag_set(Enum en)` (line 11). -/
def flag_set.of_enum (en : Nat) : flag_set := ⟨en⟩

/-- The fold expression `(static_cast<value_type>(flags) | ...)` (line 15), a
right fold over a non-empty pack, as a value of the promoted type. -/
def flag_set.fold_or (value_type : integral_type) : List Nat → Nat
  | [] => 0
  | [flag] => to_promoted value_type flag
  | flag :: rest => to_promoted value_type flag ||| flag_set.fold_or value_type rest

/-- The constructor `flag_set(Enums... flags)` (lines 13-15). -/
def flag_set.of_flags (value_type : integral_type) (flags : List Nat) : flag_set :=
  ⟨to_value_type value_type (flag_set.fold_or value_type flags)⟩

/-- The constructor `explicit flag_set(value_type value)` (line 17). -/
def flag_set.of_value (value : Nat) : flag_set := ⟨value⟩

/-- The member `value()` (line 20). -/
def flag_set.value (self : flag_set) : Nat := self.m_value

/-- The member `has_any_of(other)` (lines 27-29): `m_value & other.m_value`
converted to `bool`. -/
def flag_set.has_any_of (value_type : integral_type) (self other : flag_set) : Bool :=
  (to_promoted value_type self.m_value &&& to_promoted value_type other.m_value) != 0

/-- The member `bit_negation()` (line 41): `~value()` returned as `value_type`. -/
def flag_set.bit_negation (value_type : integral_type) (self : flag_set) : Nat :=
  to_value_type value_type
    (bit_not (promoted value_type) (to_promoted value_type self.value))

/-- The loop of `count_trailing_zeros` (lines 63-66) from the state
`(value, result)`; `fuel` bounds the number of evaluations of the loop
condition, and `none` means that the loop is still running when it is used up. -/
def flag_set.count_trailing_zeros_loop (value_type : integral_type) :
    Nat → Nat → Nat → Option Nat
  | 0, _, _ => none
  | fuel + 1, value, result =>
    if (to_promoted value_type value &&& to_promoted value_type 1) = 0 then
      flag_set.count_trailing_zeros_loop value_type fuel
        (to_value_type value_type
          (shift_right (promoted value_type) (to_promoted value_type value) 1))
        (result + 1)
    else
      some result

/-- The function `count_trailing_zeros(value)` (lines 61-68). -/
def flag_set.count_trailing_zeros (value_type : integral_type) (fuel value : Nat) :
    Option Nat :=
  flag_set.count_trailing_zeros_loop value_type fuel value 0

/-- The member `get<flag>()` (lines 43-53). -/
def flag_set.get (value_type : integral_type) (fuel : Nat) (self : flag_set) (flag : Nat) :
    Option Nat :=
  let mask := flag
  if (to_promoted value_type mask
      &&& minus_one (promoted value_type) (to_promoted value_type mask)) ≠ 0 then
    (flag_set.count_trailing_zeros value_type fuel mask).map fun count =>
      to_value_type value_type
        (shift_right (promoted value_type)
          (to_promoted value_type self.m_value &&& to_promoted value_type mask) count)
  else
    some (if (to_promoted value_type self.m_value &&& to_promoted value_type mask) ≠ 0
      then 1 else 0)

/-- The operator `lhs | rhs` (lines 74-77). -/
def flag_set.or (value_type : integral_type) (lhs rhs : flag_set) : flag_set :=
  flag_set.of_value
    (to_value_type value_type
      (to_promoted value_type lhs.value ||| to_promoted value_type rhs.value))

/-- The operator `lhs == rhs` (lines 84-87). -/
def flag_set.eq (value_type : integral_type) (lhs rhs : flag_set) : Bool :=
  to_promoted value_type lhs.value == to_promoted value_type rhs.value

/-- The operator `lhs != rhs` (lines 89-92). -/
def flag_set.ne (value_type : integral_type) (lhs rhs : flag_set) : Bool :=
  !(flag_set.eq value_type lhs rhs)

/-- A canonical virtual address of the x64 target with `va_bits` implemented
address bits (48 with four-level paging, 57 with five-level paging): the bits
from `va_bits - 1` up to 63 are all equal, so the address lies in the lower or
in the upper half of the address space. Every address of an object is
canonical. -/
def canonical_address (va_bits p : Nat) : Prop :=
  p < 2 ^ (va_bits - 1) ∨ (2 ^ 64 - 2 ^ (va_bits - 1) ≤ p ∧ p < 2 ^ 64)

instance (va_bits p : Nat) : Decidable (canonical_address va_bits p) := by
  unfold canonical_address
  exact inferInstance

/-! ## Lemmas on `hash_bytes` -/

theorem u64_eq (n : Nat) : u64 n = n % 2 ^ 64 := rfl

theorem bytes_at_length (ptr : BytePtr) (len : Nat) :
    (bytes_at ptr len).length = len := by
  simp [bytes_at]

theorem bytes_at_drop (ptr : BytePtr) (len k : Nat) :
    (bytes_at ptr len).drop k = bytes_at (fun j => ptr (k + j)) (len - k) := by
  apply List.ext_getElem
  · simp [bytes_at]
  · intro n h1 h2
    simp [bytes_at]

theorem bytes_at_take_eight (ptr : BytePtr) (len : Nat) (h : 8 ≤ len) :
    (bytes_at ptr len).take 8
      = [ptr 0, ptr 1, ptr 2, ptr 3, ptr 4, ptr 5, ptr 6, ptr 7] := by
  obtain ⟨t, rfl⟩ := Nat.exists_eq_add_of_le h
  have h8 : List.range 8 = [0, 1, 2, 3, 4, 5, 6, 7] := by decide
  simp [bytes_at, List.range_add, List.take_append_eq_append_take, h8]

theorem le_word_block (ptr : BytePtr) (len j : Nat) (h : j < len / 8) :
    le_word (((bytes_at ptr len).drop (8 * j)).take 8) = unaligned_load ptr (8 * j) := by
  rw [bytes_at_drop, bytes_at_take_eight _ _ (by omega)]
  simp only [le_word, unaligned_load, Nat.add_zero]
  omega

theorem hash_bytes_block_eq (h k : Nat) : hash_bytes_block h k = murmur_mix h k := by
  simp only [hash_bytes_block, murmur_mix, u64, hash_bytes_m, hash_bytes_r,
    Nat.shiftRight_eq_div_pow]

theorem hash_bytes_final_eq (h : Nat) : hash_bytes_final h = murmur_avalanche h := by
  simp only [hash_bytes_final, murmur_avalanche, u64, hash_bytes_m, hash_bytes_r,
    Nat.shiftRight_eq_div_pow]

theorem hash_bytes_loop_eq (ptr : BytePtr) (len h : Nat) :
    hash_bytes_loop ptr (len / 8) h
      = ((List.range (len / 8)).map
          (fun j => le_word (((bytes_at ptr len).drop (8 * j)).take 8))).foldl
          murmur_mix h := by
  have hmap : (List.range (len / 8)).map
        (fun j => le_word (((bytes_at ptr len).drop (8 * j)).take 8))
      = (List.range (len / 8)).map (fun j => unaligned_load ptr (8 * j)) := by
    apply List.map_congr_left
    intro j hj
    exact le_word_block ptr len j (List.mem_range.mp hj)
  rw [hmap, List.foldl_map]
  simp only [hash_bytes_loop, hash_bytes_block_eq]

theorem murmur_tail_bytes_at (data8 : BytePtr) (c h : Nat) :
    murmur_tail h (bytes_at data8 c)
      = (List.range c).foldl (fun acc i => acc ^^^ ((data8 i).val * 2 ^ (8 * i))) h := by
  unfold murmur_tail
  rw [bytes_at_length]
  apply List.foldl_ext
  intro a i hi
  have hi2 : i < c := List.mem_range.mp hi
  simp [bytes_at, List.getElem?_range hi2, hi2]

theorem nat_xor_left_comm (a b c : Nat) : a ^^^ (b ^^^ c) = b ^^^ (a ^^^ c) := by
  rw [← Nat.xor_assoc, ← Nat.xor_assoc, Nat.xor_comm a b]

theorem u64_shl_byte (b : Byte) (s : Nat) (hs : s ≤ 56) :
    u64 (b.val <<< s) = b.val * 2 ^ s := by
  have h1 : b.val * 2 ^ s < 2 ^ 8 * 2 ^ 56 :=
    Nat.mul_lt_mul_of_lt_of_le b.isLt (Nat.pow_le_pow_right (by decide) hs) (by positivity)
  rw [u64, Nat.shiftLeft_eq]
  exact Nat.mod_eq_of_lt (by simpa using h1)

theorem hash_bytes_switch_eq (data8 : BytePtr) (c h : Nat) (hc : c < 8) :
    hash_bytes_switch data8 c h
      = if c = 0 then h
        else ((murmur_tail h (bytes_at data8 c)) * 0xc6a4a7935bd1e995) % 2 ^ 64 := by
  have s8 := fun b : Byte => u64_shl_byte b 8 (by decide)
  have s16 := fun b : Byte => u64_shl_byte b 16 (by decide)
  have s24 := fun b : Byte => u64_shl_byte b 24 (by decide)
  have s32 := fun b : Byte => u64_shl_byte b 32 (by decide)
  have s40 := fun b : Byte => u64_shl_byte b 40 (by decide)
  have s48 := fun b : Byte => u64_shl_byte b 48 (by decide)
  have r1 : List.range 1 = [0] := by decide
  have r2 : List.range 2 = [0, 1] := by decide
  have r3 : List.range 3 = [0, 1, 2] := by decide
  have r4 : List.range 4 = [0, 1, 2, 3] := by decide
  have r5 : List.range 5 = [0, 1, 2, 3, 4] := by decide
  have r6 : List.range 6 = [0, 1, 2, 3, 4, 5] := by decide
  have r7 : List.range 7 = [0, 1, 2, 3, 4, 5, 6] := by decide
  rw [murmur_tail_bytes_at]
  interval_cases c
  · rfl
  all_goals
    simp only [hash_bytes_switch, hash_bytes_case1, hash_bytes_case2, hash_bytes_case3,
      hash_bytes_case4, hash_bytes_case5, hash_bytes_case6, hash_bytes_case7,
      s8, s16, s24, s32, s40, s48, r1, r2, r3, r4, r5, r6, r7,
      List.foldl_cons, List.foldl_nil, hash_bytes_m, Nat.mul_zero, Nat.pow_zero,
      Nat.mul_one, Nat.reduceMul, OfNat.ofNat_ne_zero, one_ne_zero, if_false, u64_eq]
  all_goals
    simp only [Nat.xor_assoc, Nat.xor_comm, nat_xor_left_comm]

theorem bytes_at_ptr_of (data : List Byte) :
    bytes_at (ptr_of data) data.length = data := by
  apply List.ext_getElem
  · simp [bytes_at]
  · intro n h1 h2
    simp [bytes_at, ptr_of, h2]

/-- The code and the reference computation agree on the first `len` bytes
behind any pointer. -/
theorem hash_bytes_eq_reference (ptr : BytePtr) (len : Nat) :
    hash_bytes ptr len = MurmurHash64A (bytes_at ptr len) := by
  have hsel : len &&& 7 = len % 8 := Nat.and_pow_two_sub_one_eq_mod len 3
  have htail : (bytes_at ptr len).drop (8 * (len / 8))
      = bytes_at (fun j => ptr (8 * (len / 8) + j)) (len % 8) := by
    rw [bytes_at_drop]
    congr 1
    omega
  unfold hash_bytes MurmurHash64A
  simp only [bytes_at_length, htail, hsel]
  rw [hash_bytes_loop_eq, hash_bytes_switch_eq _ _ _ (Nat.mod_lt _ (by decide)),
    hash_bytes_final_eq]
  rfl

/-! ## Lemmas on the pool allocator -/

theorem allocate_impl_eq (c : heap_constants) (k : Kernel) (request : alloc_request) :
    allocate_impl c k request =
      if request.pool_tag = 0 then
        ⟨[], .assertion_failed "pool tag must not be equal to zero"⟩
      else if c.DISPATCH_LEVEL < k.get_current_irql then
        ⟨[], .assertion_failed "memory allocations are disabled at IRQL > DISPATCH_LEVEL"⟩
      else if request.alignment ≤ get_max_alignment_for_pool c request.pool_type then
        ⟨[.ExAllocatePoolWithTag request.pool_type request.bytes_count request.pool_tag],
          .returned (k.ExAllocatePoolWithTag request.pool_type request.bytes_count
            request.pool_tag)⟩
      else if c.MAX_ALLOCATION_ALIGNMENT < request.alignment then
        ⟨[], .assertion_failed "allocation alignment is too large"⟩
      else
        ⟨[.ExAllocatePoolWithTag request.pool_type
            (max request.bytes_count c.MAX_ALLOCATION_ALIGNMENT) request.pool_tag],
          .returned (k.ExAllocatePoolWithTag request.pool_type
            (max request.bytes_count c.MAX_ALLOCATION_ALIGNMENT) request.pool_tag)⟩ := by
  unfold allocate_impl
  simp only [bind, Run.bind, crt_assert_with_msg, ExAllocatePoolWithTag]
  split_ifs <;> simp_all <;> omega

theorem allocate_memory_ThrowException_eq (c : heap_constants) (k : Kernel)
    (request : alloc_request) :
    allocate_memory_ThrowException c k request =
      match (allocate_impl c k request).outcome with
      | .returned memory =>
        if memory = 0 then ⟨(allocate_impl c k request).calls, .thrown_bad_alloc⟩
        else ⟨(allocate_impl c k request).calls, .returned memory⟩
      | .assertion_failed msg => ⟨(allocate_impl c k request).calls, .assertion_failed msg⟩
      | .thrown_bad_alloc => ⟨(allocate_impl c k request).calls, .thrown_bad_alloc⟩ := by
  unfold allocate_memory_ThrowException
  simp only [bind, Run.bind, throw_bad_alloc, pure, Run.pure]
  cases h : (allocate_impl c k request).outcome with
  | returned memory => by_cases hm : memory = 0 <;> simp [hm]
  | assertion_failed msg => rfl
  | thrown_bad_alloc => rfl

theorem deallocate_memory_eq (request : free_request) :
    deallocate_memory request =
      if request.memory_block = 0 then ⟨[], .returned ()⟩
      else if request.pool_tag = 0 then
        ⟨[], .assertion_failed "pool tag must not be equal to zero"⟩
      else ⟨[.ExFreePoolWithTag request.memory_block request.pool_tag], .returned ()⟩ := by
  unfold deallocate_memory deallocate_impl
  simp only [bind, Run.bind, crt_assert_with_msg, ExFreePoolWithTag, pure, Run.pure]
  split_ifs <;> simp_all

theorem allocate_memory_ThrowException_calls (c : heap_constants) (k : Kernel)
    (request : alloc_request) :
    (allocate_memory_ThrowException c k request).calls = (allocate_impl c k request).calls := by
  rw [allocate_memory_ThrowException_eq]
  cases (allocate_impl c k request).outcome with
  | returned memory => by_cases hm : memory = 0 <;> simp [hm]
  | assertion_failed msg => rfl
  | thrown_bad_alloc => rfl

theorem allocate_memory_ThrowException_fatal (c : heap_constants) (k : Kernel)
    (request : alloc_request) :
    (allocate_memory_ThrowException c k request).fatal ↔ (allocate_impl c k request).fatal := by
  rw [allocate_memory_ThrowException_eq]
  unfold Run.fatal
  cases (allocate_impl c k request).outcome with
  | returned memory => by_cases hm : memory = 0 <;> simp [hm]
  | assertion_failed msg => simp
  | thrown_bad_alloc => simp

theorem allocate_impl_contract (c : heap_constants) (k : Kernel) (request : alloc_request)
    (hnat : get_max_alignment_for_pool c request.pool_type ≤ c.MAX_ALLOCATION_ALIGNMENT) :
    ((allocate_impl c k request).fatal ↔ (request.pool_tag = 0
        ∨ c.DISPATCH_LEVEL < k.get_current_irql
        ∨ c.MAX_ALLOCATION_ALIGNMENT < request.alignment))
    ∧ ((allocate_impl c k request).fatal → (allocate_impl c k request).calls = [])
    ∧ (¬ (allocate_impl c k request).fatal → ∃ bytes_count, (allocate_impl c k request).calls
        = [KernelCall.ExAllocatePoolWithTag request.pool_type bytes_count request.pool_tag]) := by
  rw [allocate_impl_eq]
  unfold Run.fatal
  split_ifs with h1 h2 h3 h4
  · simp [h1]
  · simp [h2]
  · have h5 : ¬ c.MAX_ALLOCATION_ALIGNMENT < request.alignment := by omega
    simp [h1, h2, h5]
  · simp [h4]
  · simp [h1, h2, h4]

theorem allocate_impl_cases (c : heap_constants) (k : Kernel) (request : alloc_request) :
    (∃ msg, allocate_impl c k request = ⟨[], .assertion_failed msg⟩)
    ∨ (∃ bytes_count, allocate_impl c k request
        = ⟨[.ExAllocatePoolWithTag request.pool_type bytes_count request.pool_tag],
            .returned (k.ExAllocatePoolWithTag request.pool_type bytes_count
              request.pool_tag)⟩) := by
  rw [allocate_impl_eq]
  split_ifs
  · exact Or.inl ⟨_, rfl⟩
  · exact Or.inl ⟨_, rfl⟩
  · exact Or.inr ⟨_, rfl⟩
  · exact Or.inl ⟨_, rfl⟩
  · exact Or.inr ⟨_, rfl⟩

/-- Under an exhausted primitive the silent policy returns null and the
signaling policy throws, after the same single call. -/
theorem exhaustion_example :
    allocate_memory_DoNothing x64_constants kernel_exhausted
        ⟨64, .NonPagedPool, 16, 0x54534554⟩
      = ⟨[.ExAllocatePoolWithTag .NonPagedPool 64 0x54534554], .returned 0⟩
    ∧ allocate_memory_ThrowException x64_constants kernel_exhausted
        ⟨64, .NonPagedPool, 16, 0x54534554⟩
      = ⟨[.ExAllocatePoolWithTag .NonPagedPool 64 0x54534554], .thrown_bad_alloc⟩ := by
  constructor <;> rfl

/-! ## Lemmas on `hash_int` -/

theorem rotate_right_32_lt (x : Nat) (hx : x < 2 ^ 64) : rotate_right_32 x < 2 ^ 64 := by
  unfold rotate_right_32
  omega

theorem rotr_32_eq (x : Nat) (hx : x < 2 ^ 64) : rotr x 32 = rotate_right_32 x := by
  have hd : x / 2 ^ 32 < 2 ^ 32 := by omega
  have hor : 2 ^ 32 * x + x / 2 ^ 32 = 2 ^ 32 * x ||| x / 2 ^ 32 :=
    Nat.mul_add_lt_is_or hd x
  have hsh : x <<< (64 - 32) = 2 ^ 32 * x := by
    rw [Nat.shiftLeft_eq, Nat.mul_comm]
  unfold rotr rotate_right_32 u64
  rw [Nat.shiftRight_eq_div_pow, hsh, Nat.lor_comm, ← hor]
  omega

theorem rotate_right_32_involutive (x : Nat) (hx : x < 2 ^ 64) :
    rotate_right_32 (rotate_right_32 x) = x := by
  unfold rotate_right_32
  omega

theorem rotate_right_32_testBit (x i : Nat) (hx : x < 2 ^ 64) (hi : i < 64) :
    (rotate_right_32 x).testBit i = x.testBit ((i + 32) % 64) := by
  have hd : x / 2 ^ 32 < 2 ^ 32 := by omega
  have hform : rotate_right_32 x = 2 ^ 32 * (x % 2 ^ 32) + x / 2 ^ 32 := by
    unfold rotate_right_32
    omega
  rw [hform, Nat.testBit_mul_pow_two_add _ hd, ← Nat.shiftRight_eq_div_pow]
  by_cases h : i < 32
  · have e : (i + 32) % 64 = 32 + i := by omega
    simp [h, e]
  · have e : (i + 32) % 64 = i - 32 := by omega
    have h2 : i - 32 < 32 := by omega
    rw [if_neg h, Nat.testBit_mod_two_pow, e]
    simp [h2]

theorem hash_int_eq (x : Nat) (hx : x < 2 ^ 64) :
    hash_int x
      = rotate_right_32
          ((x * 0xA24BAED4963EE407 + rotate_right_32 x * 0x9FB21C651E98DF25) % 2 ^ 64) := by
  unfold hash_int
  simp only [u64_eq]
  rw [rotr_32_eq x hx, rotr_32_eq _ (Nat.mod_lt _ (by positivity)), ← Nat.add_mod]

/-- The sum that `hash_int` rotates, in terms of the two halves of `x`. -/
theorem hash_int_sum_halves (x : Nat) :
    x * 0xA24BAED4963EE407 + rotate_right_32 x * 0x9FB21C651E98DF25
      = (x % 2 ^ 32) * (0xA24BAED4963EE407 + 2 ^ 32 * 0x9FB21C651E98DF25)
        + (x / 2 ^ 32) * (2 ^ 32 * 0xA24BAED4963EE407 + 0x9FB21C651E98DF25) := by
  have hx : x = 2 ^ 32 * (x / 2 ^ 32) + x % 2 ^ 32 := (Nat.div_add_mod x (2 ^ 32)).symm
  unfold rotate_right_32
  generalize x / 2 ^ 32 = hi at hx ⊢
  generalize x % 2 ^ 32 = lo at hx ⊢
  subst hx
  ring

theorem hash_int_sum_modEq (p q : Nat) (hp : p < 2 ^ 64) (hq : q < 2 ^ 64)
    (h : hash_int p = hash_int q) :
    (p % 2 ^ 32) * (0xA24BAED4963EE407 + 2 ^ 32 * 0x9FB21C651E98DF25)
        + (p / 2 ^ 32) * (2 ^ 32 * 0xA24BAED4963EE407 + 0x9FB21C651E98DF25)
      ≡ (q % 2 ^ 32) * (0xA24BAED4963EE407 + 2 ^ 32 * 0x9FB21C651E98DF25)
        + (q / 2 ^ 32) * (2 ^ 32 * 0xA24BAED4963EE407 + 0x9FB21C651E98DF25)
      [MOD 2 ^ 64] := by
  rw [hash_int_eq p hp, hash_int_eq q hq] at h
  have h2 := congrArg rotate_right_32 h
  rw [rotate_right_32_involutive _ (Nat.mod_lt _ (by positivity)),
    rotate_right_32_involutive _ (Nat.mod_lt _ (by positivity)),
    hash_int_sum_halves p, hash_int_sum_halves q] at h2
  exact h2

theorem hash_int_inj_of_same_upper (p q : Nat) (hp : p < 2 ^ 64) (hq : q < 2 ^ 64)
    (hup : p / 2 ^ 32 = q / 2 ^ 32) (h : hash_int p = hash_int q) : p = q := by
  have h1 := hash_int_sum_modEq p q hp hq h
  rw [hup] at h1
  have h2 := Nat.ModEq.add_right_cancel' _ h1
  have hco : Nat.gcd (2 ^ 64) (0xA24BAED4963EE407 + 2 ^ 32 * 0x9FB21C651E98DF25) = 1 := by
    norm_num
  have h3 : p % 2 ^ 32 ≡ q % 2 ^ 32 [MOD 2 ^ 64] :=
    Nat.ModEq.cancel_right_of_coprime hco h2
  have h4 : p % 2 ^ 32 = q % 2 ^ 32 := by
    unfold Nat.ModEq at h3
    omega
  omega

theorem hash_int_inj_of_same_lower (p q : Nat) (hp : p < 2 ^ 64) (hq : q < 2 ^ 64)
    (hlo : p % 2 ^ 32 = q % 2 ^ 32) (h : hash_int p = hash_int q) : p = q := by
  have h1 := hash_int_sum_modEq p q hp hq h
  rw [hlo] at h1
  have h2 := Nat.ModEq.add_left_cancel' _ h1
  have hco : Nat.gcd (2 ^ 64) (2 ^ 32 * 0xA24BAED4963EE407 + 0x9FB21C651E98DF25) = 1 := by
    norm_num
  have h3 : p / 2 ^ 32 ≡ q / 2 ^ 32 [MOD 2 ^ 64] :=
    Nat.ModEq.cancel_right_of_coprime hco h2
  have h4 : p / 2 ^ 32 = q / 2 ^ 32 := by
    unfold Nat.ModEq at h3
    omega
  omega

/-! ## Lemmas on the integer types -/

theorem testBit_top_iff (Ty : integral_type) (v : Nat) (hv : v < 2 ^ Ty.bits) :
    v.testBit (Ty.bits - 1) = decide (2 ^ (Ty.bits - 1) ≤ v) := by
  rw [Nat.testBit_to_div_mod]
  cases Ty <;> simp only [integral_type.bits] at hv ⊢ <;> congr 1 <;> apply propext <;> omega

theorem sign_extend_64_eq (Ty : integral_type) (v : Nat) (hv : v < 2 ^ Ty.bits) :
    sign_extend_64 Ty v
      = if Ty.is_signed = true ∧ 2 ^ (Ty.bits - 1) ≤ v then v + (2 ^ 64 - 2 ^ Ty.bits) else v := by
  unfold sign_extend_64
  rw [testBit_top_iff Ty v hv]
  by_cases h1 : Ty.is_signed = true <;> by_cases h2 : 2 ^ (Ty.bits - 1) ≤ v <;> simp [h1, h2]

theorem sign_extend_64_lt (Ty : integral_type) (v : Nat) (hv : v < 2 ^ Ty.bits) :
    sign_extend_64 Ty v < 2 ^ 64 := by
  rw [sign_extend_64_eq Ty v hv]
  cases Ty <;> simp only [integral_type.bits, integral_type.is_signed] at hv ⊢ <;>
    split_ifs <;> omega

theorem static_cast_uint64_eq (Ty : integral_type) (v : Nat) (hv : v < 2 ^ Ty.bits) :
    static_cast_uint64 Ty v
      = if Ty.is_signed = true ∧ 2 ^ (Ty.bits - 1) ≤ v then v + (2 ^ 64 - 2 ^ Ty.bits) else v := by
  unfold static_cast_uint64 convert
  rw [show integral_type.uint64.bits = 64 from rfl,
    Nat.mod_eq_of_lt (sign_extend_64_lt Ty v hv), sign_extend_64_eq Ty v hv]

theorem hash_int_eq_of_lt_two_pow_32 (x : Nat) (hx : x < 2 ^ 32) :
    hash_int x
      = rotate_right_32
          (x * (0xA24BAED4963EE407 + 2 ^ 32 * 0x9FB21C651E98DF25) % 2 ^ 64) := by
  have h64 : x < 2 ^ 64 := by omega
  have hlo : x % 2 ^ 32 = x := Nat.mod_eq_of_lt hx
  have hhi : x / 2 ^ 32 = 0 := Nat.div_eq_of_lt hx
  rw [hash_int_eq x h64, hash_int_sum_halves, hlo, hhi, Nat.zero_mul, Nat.add_zero]

theorem hash_int_ne_of_upper_ones_zero (p q : Nat) (hp : p < 2 ^ 64) (hq : q < 2 ^ 64)
    (hpu : p / 2 ^ 32 = 2 ^ 32 - 1) (hqu : q / 2 ^ 32 = 0) : hash_int p ≠ hash_int q := by
  intro h
  have h1 := hash_int_sum_modEq p q hp hq h
  rw [hpu, hqu] at h1
  have hlp : p % 2 ^ 32 < 2 ^ 32 := Nat.mod_lt _ (by positivity)
  have hlq : q % 2 ^ 32 < 2 ^ 32 := Nat.mod_lt _ (by positivity)
  generalize p % 2 ^ 32 = lp at h1 hlp
  generalize q % 2 ^ 32 = lq at h1 hlq
  have h2 := h1.mul_right 0x2d3785eef69349b7
  have hA : (0xA24BAED4963EE407 + 2 ^ 32 * 0x9FB21C651E98DF25) * 0x2d3785eef69349b7
      ≡ 1 [MOD 2 ^ 64] := by decide
  have h3 : (lp * (0xA24BAED4963EE407 + 2 ^ 32 * 0x9FB21C651E98DF25)
        + (2 ^ 32 - 1) * (2 ^ 32 * 0xA24BAED4963EE407 + 0x9FB21C651E98DF25))
        * 0x2d3785eef69349b7
      = lp * ((0xA24BAED4963EE407 + 2 ^ 32 * 0x9FB21C651E98DF25) * 0x2d3785eef69349b7)
        + (2 ^ 32 - 1) * (2 ^ 32 * 0xA24BAED4963EE407 + 0x9FB21C651E98DF25)
          * 0x2d3785eef69349b7 := by ring
  have h4 : (lq * (0xA24BAED4963EE407 + 2 ^ 32 * 0x9FB21C651E98DF25)
        + 0 * (2 ^ 32 * 0xA24BAED4963EE407 + 0x9FB21C651E98DF25)) * 0x2d3785eef69349b7
      = lq * ((0xA24BAED4963EE407 + 2 ^ 32 * 0x9FB21C651E98DF25) * 0x2d3785eef69349b7) := by
    ring
  rw [h3, h4] at h2
  have h5 : lp * 1 + (2 ^ 32 - 1) * (2 ^ 32 * 0xA24BAED4963EE407 + 0x9FB21C651E98DF25)
          * 0x2d3785eef69349b7
      ≡ lq * 1 [MOD 2 ^ 64] :=
    ((Nat.ModEq.add_right _ (Nat.ModEq.mul_left lp hA)).symm.trans h2).trans
      (Nat.ModEq.mul_left lq hA)
  unfold Nat.ModEq at h5
  norm_num at h5
  omega

theorem hash_int_inj_of_upper_zero_or_ones (p q : Nat) (hp : p < 2 ^ 64) (hq : q < 2 ^ 64)
    (hpu : p / 2 ^ 32 = 0 ∨ p / 2 ^ 32 = 2 ^ 32 - 1)
    (hqu : q / 2 ^ 32 = 0 ∨ q / 2 ^ 32 = 2 ^ 32 - 1)
    (h : hash_int p = hash_int q) : p = q := by
  rcases hpu with hp0 | hp1 <;> rcases hqu with hq0 | hq1
  · exact hash_int_inj_of_same_upper p q hp hq (by rw [hp0, hq0]) h
  · exact absurd h.symm (hash_int_ne_of_upper_ones_zero q p hq hp hq1 hp0)
  · exact absurd h (hash_int_ne_of_upper_ones_zero p q hp hq hp1 hq0)
  · exact hash_int_inj_of_same_upper p q hp hq (by rw [hp1, hq1]) h

theorem static_cast_uint64_upper (Ty : integral_type) (v : Nat) (hv : v < 2 ^ Ty.bits)
    (hbits : Ty.bits ≤ 32) :
    static_cast_uint64 Ty v / 2 ^ 32 = 0 ∨ static_cast_uint64 Ty v / 2 ^ 32 = 2 ^ 32 - 1 := by
  rw [static_cast_uint64_eq Ty v hv]
  cases Ty <;> simp only [integral_type.bits, integral_type.is_signed] at hv hbits ⊢ <;>
    split_ifs <;> omega

theorem static_cast_uint64_injective (Ty : integral_type) (a b : Nat)
    (ha : a < 2 ^ Ty.bits) (hb : b < 2 ^ Ty.bits)
    (h : static_cast_uint64 Ty a = static_cast_uint64 Ty b) : a = b := by
  rw [static_cast_uint64_eq Ty a ha, static_cast_uint64_eq Ty b hb] at h
  cases Ty <;> simp only [integral_type.bits, integral_type.is_signed] at ha hb h <;>
    split_ifs at h <;> omega

/-! ## Lemmas on `flag_set` -/

theorem to_promoted_eq (U : integral_type) (v : Nat) (hv : v < 2 ^ U.bits) :
    to_promoted U v
      = if U.is_signed = true ∧ 2 ^ (U.bits - 1) ≤ v
        then v + (2 ^ (promoted U).bits - 2 ^ U.bits) else v := by
  unfold to_promoted convert
  rw [sign_extend_64_eq U v hv]
  cases U <;> simp only [integral_type.bits, integral_type.is_signed, promoted] at hv ⊢ <;>
    split_ifs <;> omega

theorem to_promoted_lt (U : integral_type) (v : Nat) :
    to_promoted U v < 2 ^ (promoted U).bits := by
  unfold to_promoted convert
  exact Nat.mod_lt _ (by positivity)

theorem to_value_type_eq (U : integral_type) (x : Nat) (hx : x < 2 ^ (promoted U).bits) :
    to_value_type U x = x % 2 ^ U.bits := by
  unfold to_value_type convert
  rw [sign_extend_64_eq (promoted U) x hx]
  cases U <;> simp only [integral_type.bits, integral_type.is_signed, promoted] at hx ⊢ <;>
    split_ifs <;> omega

theorem to_promoted_mod (U : integral_type) (v : Nat) (hv : v < 2 ^ U.bits) :
    to_promoted U v % 2 ^ U.bits = v := by
  rw [to_promoted_eq U v hv]
  cases U <;> simp only [integral_type.bits, integral_type.is_signed, promoted] at hv ⊢ <;>
    split_ifs <;> omega

theorem to_value_type_to_promoted (U : integral_type) (v : Nat) (hv : v < 2 ^ U.bits) :
    to_value_type U (to_promoted U v) = v := by
  rw [to_value_type_eq U _ (to_promoted_lt U v), to_promoted_mod U v hv]

theorem to_promoted_injective (U : integral_type) (a b : Nat)
    (ha : a < 2 ^ U.bits) (hb : b < 2 ^ U.bits) (h : to_promoted U a = to_promoted U b) :
    a = b := by
  rw [← to_promoted_mod U a ha, ← to_promoted_mod U b hb, h]

theorem nat_or_mod_two_pow (x y n : Nat) :
    (x ||| y) % 2 ^ n = x % 2 ^ n ||| y % 2 ^ n := by
  apply Nat.eq_of_testBit_eq
  intro i
  simp only [Nat.testBit_mod_two_pow, Nat.testBit_or]
  cases decide (i < n) <;> simp

theorem nat_and_mod_two_pow (x y n : Nat) :
    (x &&& y) % 2 ^ n = x % 2 ^ n &&& y % 2 ^ n := by
  apply Nat.eq_of_testBit_eq
  intro i
  simp only [Nat.testBit_mod_two_pow, Nat.testBit_and]
  cases decide (i < n) <;> simp

theorem nat_and_eq_and_mod (x z n : Nat) (hx : x < 2 ^ n) : x &&& z = x &&& z % 2 ^ n := by
  apply Nat.eq_of_testBit_eq
  intro i
  simp only [Nat.testBit_mod_two_pow, Nat.testBit_and]
  by_cases hi : i < n
  · simp [hi]
  · have hlt : x < 2 ^ i := lt_of_lt_of_le hx (Nat.pow_le_pow_right (by decide) (by omega))
    simp [Nat.testBit_lt_two_pow hlt]

theorem and_to_promoted_eq_zero_iff (U : integral_type) (x y : Nat)
    (hx : x < 2 ^ U.bits) (hy : y < 2 ^ U.bits) :
    to_promoted U x &&& to_promoted U y = 0 ↔ x &&& y = 0 := by
  constructor
  · intro h
    have h2 := congrArg (fun z => z % 2 ^ U.bits) h
    simp only [nat_and_mod_two_pow, to_promoted_mod U x hx, to_promoted_mod U y hy,
      Nat.zero_mod] at h2
    exact h2
  · intro h
    by_cases hxn : U.is_signed = true ∧ 2 ^ (U.bits - 1) ≤ x
    · by_cases hyn : U.is_signed = true ∧ 2 ^ (U.bits - 1) ≤ y
      · exfalso
        have hbx : x.testBit (U.bits - 1) = true := by
          rw [testBit_top_iff U x hx]
          exact decide_eq_true hxn.2
        have hby : y.testBit (U.bits - 1) = true := by
          rw [testBit_top_iff U y hy]
          exact decide_eq_true hyn.2
        have hb : (x &&& y).testBit (U.bits - 1) = true := by
          rw [Nat.testBit_and, hbx, hby]
          rfl
        rw [h] at hb
        simp at hb
      · have hpy : to_promoted U y = y := by
          rw [to_promoted_eq U y hy, if_neg hyn]
        rw [hpy, Nat.land_comm, nat_and_eq_and_mod y _ _ hy, to_promoted_mod U x hx,
          Nat.land_comm]
        exact h
    · have hpx : to_promoted U x = x := by
        rw [to_promoted_eq U x hx, if_neg hxn]
      rw [hpx, nat_and_eq_and_mod x _ _ hx, to_promoted_mod U y hy]
      exact h

theorem to_value_type_or (U : integral_type) (x y : Nat)
    (hx : x < 2 ^ U.bits) (hy : y < 2 ^ U.bits) :
    to_value_type U (to_promoted U x ||| to_promoted U y) = x ||| y := by
  rw [to_value_type_eq U _ (Nat.or_lt_two_pow (to_promoted_lt U x) (to_promoted_lt U y)),
    nat_or_mod_two_pow, to_promoted_mod U x hx, to_promoted_mod U y hy]

theorem nat_or_and_self (a b : Nat) : (a ||| b) &&& a = a := by
  apply Nat.eq_of_testBit_eq
  intro i
  simp only [Nat.testBit_and, Nat.testBit_or]
  cases a.testBit i <;> cases b.testBit i <;> rfl

theorem flag_set_or_value (U : integral_type) (x y : flag_set)
    (hx : x.value < 2 ^ U.bits) (hy : y.value < 2 ^ U.bits) :
    (flag_set.or U x y).value = x.value ||| y.value := by
  unfold flag_set.or flag_set.of_value
  exact to_value_type_or U _ _ hx hy

theorem flag_set_has_any_of_iff (U : integral_type) (x y : flag_set)
    (hx : x.value < 2 ^ U.bits) (hy : y.value < 2 ^ U.bits) :
    flag_set.has_any_of U x y = true ↔ x.value &&& y.value ≠ 0 := by
  unfold flag_set.has_any_of
  rw [bne_iff_ne]
  exact not_congr (and_to_promoted_eq_zero_iff U _ _ hx hy)

theorem flag_set_bit_negation_eq (U : integral_type) (f : flag_set)
    (hf : f.value < 2 ^ U.bits) :
    flag_set.bit_negation U f = 2 ^ U.bits - 1 - f.value := by
  unfold flag_set.bit_negation
  have hlt := to_promoted_lt U f.value
  have hnot : bit_not (promoted U) (to_promoted U f.value) < 2 ^ (promoted U).bits := by
    unfold bit_not
    have hpos : 0 < 2 ^ (promoted U).bits := by positivity
    omega
  rw [to_value_type_eq U _ hnot]
  unfold bit_not
  rw [to_promoted_eq U f.value hf]
  cases U <;> simp only [integral_type.bits, integral_type.is_signed, promoted] at hf ⊢ <;>
    split_ifs <;> omega

theorem foldr_or_lt (w : Nat) (flags : List Nat) (h : ∀ f ∈ flags, f < 2 ^ w) :
    flags.foldr (fun a b => a ||| b) 0 < 2 ^ w := by
  induction flags with
  | nil => exact Nat.two_pow_pos w
  | cons f rest ih =>
    rw [List.foldr_cons]
    exact Nat.or_lt_two_pow (h f (List.mem_cons_self _ _))
      (ih (fun g hg => h g (List.mem_cons_of_mem _ hg)))

theorem foldr_or_perm (l₁ l₂ : List Nat) (hperm : l₁.Perm l₂) :
    l₁.foldr (fun a b => a ||| b) 0 = l₂.foldr (fun a b => a ||| b) 0 := by
  induction hperm with
  | nil => rfl
  | cons x _ ih => simp only [List.foldr_cons, ih]
  | swap x y l =>
    simp only [List.foldr_cons]
    rw [← Nat.lor_assoc, ← Nat.lor_assoc, Nat.lor_comm y x]
  | trans _ _ ih₁ ih₂ => exact ih₁.trans ih₂

theorem fold_or_spec (U : integral_type) (flags : List Nat) (hne : flags ≠ [])
    (h : ∀ f ∈ flags, f < 2 ^ U.bits) :
    flag_set.fold_or U flags < 2 ^ (promoted U).bits
    ∧ flag_set.fold_or U flags % 2 ^ U.bits = flags.foldr (fun a b => a ||| b) 0 := by
  induction flags with
  | nil => exact absurd rfl hne
  | cons f rest ih =>
    have hf : f < 2 ^ U.bits := h f (List.mem_cons_self _ _)
    cases rest with
    | nil =>
      simp only [flag_set.fold_or, List.foldr_cons, List.foldr_nil, Nat.or_zero]
      exact ⟨to_promoted_lt U f, to_promoted_mod U f hf⟩
    | cons g rest2 =>
      have ih2 := ih (List.cons_ne_nil _ _) (fun x hx => h x (List.mem_cons_of_mem _ hx))
      simp only [flag_set.fold_or, List.foldr_cons] at ih2 ⊢
      refine ⟨Nat.or_lt_two_pow (to_promoted_lt U f) ih2.1, ?_⟩
      rw [nat_or_mod_two_pow, to_promoted_mod U f hf, ih2.2]

theorem flag_set_of_flags_value (U : integral_type) (flags : List Nat) (hne : flags ≠ [])
    (h : ∀ f ∈ flags, f < 2 ^ U.bits) :
    (flag_set.of_flags U flags).value = flags.foldr (fun a b => a ||| b) 0 := by
  have hs := fold_or_spec U flags hne h
  show to_value_type U (flag_set.fold_or U flags) = _
  rw [to_value_type_eq U _ hs.1, hs.2]

theorem flag_set_eq_iff (U : integral_type) (x y : flag_set)
    (hx : x.value < 2 ^ U.bits) (hy : y.value < 2 ^ U.bits) :
    flag_set.eq U x y = true ↔ x.value = y.value := by
  unfold flag_set.eq
  rw [beq_iff_eq]
  exact ⟨to_promoted_injective U _ _ hx hy, fun h => by rw [h]⟩

theorem shift_right_one (T : integral_type) (x : Nat) (hx : x < 2 ^ T.bits) :
    shift_right T x 1
      = x / 2 + (if T.is_signed = true ∧ 2 ^ (T.bits - 1) ≤ x then 2 ^ (T.bits - 1) else 0) := by
  unfold shift_right
  rw [testBit_top_iff T x hx]
  cases T <;>
    simp only [integral_type.bits, integral_type.is_signed, Nat.shiftRight_eq_div_pow,
      Bool.and_eq_true, decide_eq_true_eq, Bool.false_eq_true, false_and, true_and,
      if_false] at hx ⊢ <;>
    (try split_ifs) <;> omega

/-- The step `value >>= 1` of the loop, on bit patterns of `value_type`. -/
theorem ctz_step_eq (U : integral_type) (value : Nat) (hv : value < 2 ^ U.bits) :
    to_value_type U (shift_right (promoted U) (to_promoted U value) 1)
      = value / 2 + (if U.is_signed = true ∧ 2 ^ (U.bits - 1) ≤ value
          then 2 ^ (U.bits - 1) else 0) := by
  have hpv := to_promoted_lt U value
  have hlt : shift_right (promoted U) (to_promoted U value) 1 < 2 ^ (promoted U).bits := by
    rw [shift_right_one _ _ hpv]
    cases U <;> simp only [integral_type.bits, integral_type.is_signed, promoted, Bool.false_eq_true,
      false_and, true_and, if_false] at hpv ⊢ <;>
      (try split_ifs) <;> omega
  rw [to_value_type_eq U _ hlt, shift_right_one _ _ hpv, to_promoted_eq U value hv]
  cases U <;> simp only [integral_type.bits, integral_type.is_signed, promoted, Bool.false_eq_true,
      false_and, true_and, if_false] at hv ⊢ <;>
    (try split_ifs) <;> omega

/-- The condition `(value & 1) == 0` of the loop, on bit patterns. -/
theorem ctz_cond_iff (U : integral_type) (value : Nat) (hv : value < 2 ^ U.bits) :
    to_promoted U value &&& to_promoted U 1 = 0 ↔ value % 2 = 0 := by
  have h1 : to_promoted U 1 = 1 := by cases U <;> decide
  rw [h1, Nat.and_one_is_mod, to_promoted_eq U value hv]
  cases U <;> simp only [integral_type.bits, integral_type.is_signed, promoted, Bool.false_eq_true,
      false_and, true_and, if_false] at hv ⊢ <;>
    (try split_ifs) <;> omega

theorem integral_type_bits_pos (U : integral_type) : ∃ k, U.bits = k + 1 := by
  cases U <;> exact ⟨_, rfl⟩

theorem ctz_step_lt (U : integral_type) (value : Nat) (hv : value < 2 ^ U.bits) :
    value / 2 + (if U.is_signed = true ∧ 2 ^ (U.bits - 1) ≤ value
      then 2 ^ (U.bits - 1) else 0) < 2 ^ U.bits := by
  obtain ⟨k, hk⟩ := integral_type_bits_pos U
  rw [hk] at hv ⊢
  rw [Nat.add_sub_cancel]
  have hp : 2 ^ (k + 1) = 2 * 2 ^ k := by rw [Nat.pow_succ, Nat.mul_comm]
  rw [hp] at hv ⊢
  split_ifs <;> omega

theorem ctz_step_testBit (U : integral_type) (value i : Nat) (hv : value < 2 ^ U.bits)
    (hi : i + 1 < U.bits) :
    (value / 2 + (if U.is_signed = true ∧ 2 ^ (U.bits - 1) ≤ value
      then 2 ^ (U.bits - 1) else 0)).testBit i = value.testBit (i + 1) := by
  obtain ⟨k, hk⟩ := integral_type_bits_pos U
  rw [hk] at hv hi ⊢
  rw [Nat.add_sub_cancel]
  have hp : 2 ^ (k + 1) = 2 * 2 ^ k := by rw [Nat.pow_succ, Nat.mul_comm]
  have hhalf : value / 2 < 2 ^ k := by omega
  split_ifs
  · have hform : value / 2 + 2 ^ k = 2 ^ k * 1 + value / 2 := by omega
    rw [hform, Nat.testBit_mul_pow_two_add 1 hhalf, if_pos (by omega), Nat.testBit_div_two]
  · rw [Nat.add_zero, Nat.testBit_div_two]

theorem testBit_lt_of_lt_two_pow (value c w : Nat) (hv : value < 2 ^ w)
    (hc : value.testBit c = true) : c < w := by
  by_contra hge
  have hlt : value < 2 ^ c := lt_of_lt_of_le hv (Nat.pow_le_pow_right (by decide) (by omega))
  rw [Nat.testBit_lt_two_pow hlt] at hc
  exact Bool.noConfusion hc

theorem ctz_loop_some (U : integral_type) (c : Nat) :
    ∀ value result fuel : Nat, value < 2 ^ U.bits → value.testBit c = true →
      (∀ i, i < c → value.testBit i = false) → c < fuel →
      flag_set.count_trailing_zeros_loop U fuel value result = some (result + c) := by
  induction c with
  | zero =>
    intro value result fuel hv hc _ hfuel
    obtain ⟨fuel', rfl⟩ : ∃ f, fuel = f + 1 := ⟨fuel - 1, by omega⟩
    have hodd : ¬ value % 2 = 0 := by
      rw [Nat.testBit_zero] at hc
      have := of_decide_eq_true hc
      omega
    unfold flag_set.count_trailing_zeros_loop
    rw [if_neg (fun h => hodd ((ctz_cond_iff U value hv).mp h))]
    rfl
  | succ c ih =>
    intro value result fuel hv hc hlow hfuel
    obtain ⟨fuel', rfl⟩ : ∃ f, fuel = f + 1 := ⟨fuel - 1, by omega⟩
    have heven : value % 2 = 0 := by
      have h0 := hlow 0 (by omega)
      rw [Nat.testBit_zero] at h0
      have := of_decide_eq_false h0
      omega
    have hcw : c + 1 < U.bits := testBit_lt_of_lt_two_pow value (c + 1) U.bits hv hc
    unfold flag_set.count_trailing_zeros_loop
    rw [if_pos ((ctz_cond_iff U value hv).mpr heven), ctz_step_eq U value hv]
    rw [ih _ (result + 1) fuel' (ctz_step_lt U value hv)
      (by rw [ctz_step_testBit U value c hv hcw]; exact hc)
      (fun i hi => by
        rw [ctz_step_testBit U value i hv (by omega)]
        exact hlow (i + 1) (by omega))
      (by omega)]
    congr 1
    omega

theorem ctz_loop_none (U : integral_type) (c : Nat) :
    ∀ value result fuel : Nat, value < 2 ^ U.bits → value.testBit c = true →
      (∀ i, i < c → value.testBit i = false) → fuel ≤ c →
      flag_set.count_trailing_zeros_loop U fuel value result = none := by
  induction c with
  | zero =>
    intro value result fuel _ _ _ hfuel
    obtain rfl : fuel = 0 := by omega
    rfl
  | succ c ih =>
    intro value result fuel hv hc hlow hfuel
    cases fuel with
    | zero => rfl
    | succ fuel' =>
      have heven : value % 2 = 0 := by
        have h0 := hlow 0 (by omega)
        rw [Nat.testBit_zero] at h0
        have := of_decide_eq_false h0
        omega
      have hcw : c + 1 < U.bits := testBit_lt_of_lt_two_pow value (c + 1) U.bits hv hc
      unfold flag_set.count_trailing_zeros_loop
      rw [if_pos ((ctz_cond_iff U value hv).mpr heven), ctz_step_eq U value hv]
      exact ih _ (result + 1) fuel' (ctz_step_lt U value hv)
        (by rw [ctz_step_testBit U value c hv hcw]; exact hc)
        (fun i hi => by
          rw [ctz_step_testBit U value i hv (by omega)]
          exact hlow (i + 1) (by omega))
        (by omega)

theorem ctz_loop_zero (U : integral_type) :
    ∀ fuel result : Nat, flag_set.count_trailing_zeros_loop U fuel 0 result = none := by
  intro fuel
  induction fuel with
  | zero => intro result; rfl
  | succ fuel ih =>
    intro result
    have h0 : (0 : Nat) < 2 ^ U.bits := by positivity
    unfold flag_set.count_trailing_zeros_loop
    rw [if_pos ((ctz_cond_iff U 0 h0).mpr rfl), ctz_step_eq U 0 h0]
    have hnot : ¬ (U.is_signed = true ∧ 2 ^ (U.bits - 1) ≤ 0) := by
      rintro ⟨_, h⟩
      have : 0 < 2 ^ (U.bits - 1) := by positivity
      omega
    rw [if_neg hnot]
    exact ih (result + 1)

theorem exists_lowest_set_bit (value : Nat) (hne : value ≠ 0) :
    ∃ c, value.testBit c = true ∧ ∀ i, i < c → value.testBit i = false := by
  have hex : ∃ i, value.testBit i = true := Nat.ne_zero_implies_bit_true hne
  refine ⟨Nat.find hex, Nat.find_spec hex, fun i hi => ?_⟩
  have := Nat.find_min hex hi
  simpa using this

theorem and_two_pow_eq (v c : Nat) : v &&& 2 ^ c = if v.testBit c = true then 2 ^ c else 0 := by
  apply Nat.eq_of_testBit_eq
  intro i
  rw [Nat.testBit_and, Nat.testBit_two_pow]
  split_ifs with h
  · rw [Nat.testBit_two_pow]
    by_cases hci : c = i
    · subst hci
      simp [h]
    · simp [hci]
  · by_cases hci : c = i
    · subst hci
      simp [h]
    · simp [hci]

theorem eq_two_pow_of_and_pred_eq_zero (mask c : Nat) (hc : mask.testBit c = true)
    (hlow : ∀ i, i < c → mask.testBit i = false) (hand : mask &&& (mask - 1) = 0) :
    mask = 2 ^ c := by
  have hmod : mask % 2 ^ (c + 1) = 2 ^ c := by
    apply Nat.eq_of_testBit_eq
    intro i
    rw [Nat.testBit_mod_two_pow, Nat.testBit_two_pow]
    rcases Nat.lt_trichotomy i c with h | h | h
    · have hne : ¬ c = i := by omega
      simp [hlow i h, hne]
    · subst h
      simp [hc]
    · have h1 : ¬ i < c + 1 := by omega
      have h2 : ¬ c = i := by omega
      simp [h1, h2]
  have hdecomp : mask = 2 ^ (c + 1) * (mask / 2 ^ (c + 1)) + 2 ^ c := by
    have h := Nat.div_add_mod mask (2 ^ (c + 1))
    rw [hmod] at h
    exact h.symm
  generalize mask / 2 ^ (c + 1) = q at hdecomp
  have hpos : 0 < 2 ^ c := by positivity
  have hp : 2 ^ (c + 1) = 2 * 2 ^ c := by rw [Nat.pow_succ, Nat.mul_comm]
  by_cases hq : q = 0
  · rw [hq, Nat.mul_zero, Nat.zero_add] at hdecomp
    exact hdecomp
  · exfalso
    obtain ⟨j, hj⟩ := Nat.ne_zero_implies_bit_true hq
    have hsub : c + 1 + j - (c + 1) = j := by omega
    have h1 : mask.testBit (c + 1 + j) = true := by
      rw [hdecomp, Nat.testBit_mul_pow_two_add q (by omega), if_neg (by omega), hsub]
      exact hj
    have h2 : (mask - 1).testBit (c + 1 + j) = true := by
      have hform : mask - 1 = 2 ^ (c + 1) * q + (2 ^ c - 1) := by
        rw [hdecomp]
        omega
      rw [hform, Nat.testBit_mul_pow_two_add q (by omega), if_neg (by omega), hsub]
      exact hj
    have h3 : (mask &&& (mask - 1)).testBit (c + 1 + j) = true := by
      rw [Nat.testBit_and, h1, h2]
      rfl
    rw [hand] at h3
    simp at h3

theorem minus_one_eq (T : integral_type) (x : Nat) (hpos : 0 < x) (hx : x < 2 ^ T.bits) :
    minus_one T x = x - 1 := by
  unfold minus_one
  cases T <;> simp only [integral_type.bits] at hx ⊢ <;> omega

theorem two_pow_bits_le_promoted (U : integral_type) :
    2 ^ U.bits ≤ 2 ^ (promoted U).bits := by
  cases U <;> decide

theorem to_promoted_unsigned (U : integral_type) (hU : U.is_signed = false) (v : Nat)
    (hv : v < 2 ^ U.bits) : to_promoted U v = v := by
  rw [to_promoted_eq U v hv, if_neg]
  rintro ⟨h, _⟩
  rw [hU] at h
  exact Bool.noConfusion h

theorem shift_right_unsigned (U : integral_type) (hU : U.is_signed = false) (x c : Nat)
    (hx : x < 2 ^ U.bits) : shift_right (promoted U) x c = x >>> c := by
  unfold shift_right
  have htop : ((promoted U).is_signed && x.testBit ((promoted U).bits - 1)) = false := by
    cases U
    case uint8 =>
      have hlt : x < 2 ^ 31 := lt_of_lt_of_le hx (by decide)
      simp [promoted, integral_type.bits, Nat.testBit_lt_two_pow hlt]
    case uint16 =>
      have hlt : x < 2 ^ 31 := lt_of_lt_of_le hx (by decide)
      simp [promoted, integral_type.bits, Nat.testBit_lt_two_pow hlt]
    case uint32 => rfl
    case uint64 => rfl
    all_goals exact Bool.noConfusion hU
  rw [htop]
  rfl

/-- The result of `get<flag>()` over an unsigned underlying type, for a mask
whose lowest set bit has index `c`. -/
theorem get_unsigned_eq (U : integral_type) (hU : U.is_signed = false) (v mask fuel c : Nat)
    (hv : v < 2 ^ U.bits) (hmask : mask < 2 ^ U.bits) (hfuel : U.bits ≤ fuel)
    (hc : mask.testBit c = true) (hlow : ∀ i, i < c → mask.testBit i = false) :
    flag_set.get U fuel ⟨v⟩ mask = some ((v &&& mask) >>> c) := by
  have hcw : c < U.bits := testBit_lt_of_lt_two_pow mask c U.bits hmask hc
  have hpos : 0 < mask := by
    rcases Nat.eq_zero_or_pos mask with h | h
    · rw [h] at hc
      simp at hc
    · exact h
  have hle := two_pow_bits_le_promoted U
  have hand_lt : v &&& mask < 2 ^ U.bits := lt_of_le_of_lt Nat.and_le_left hv
  unfold flag_set.get
  simp only [to_promoted_unsigned U hU v hv, to_promoted_unsigned U hU mask hmask,
    minus_one_eq (promoted U) mask hpos (lt_of_lt_of_le hmask hle)]
  by_cases hand : mask &&& (mask - 1) = 0
  · have hm : mask = 2 ^ c := eq_two_pow_of_and_pred_eq_zero mask c hc hlow hand
    rw [if_neg (not_not.mpr hand), hm, and_two_pow_eq]
    have hpc : 0 < 2 ^ c := by positivity
    by_cases hb : v.testBit c = true
    · rw [if_pos hb, if_pos (by omega), Nat.shiftRight_eq_div_pow, Nat.div_self hpc]
    · rw [if_neg hb, if_neg (by omega), Nat.zero_shiftRight]
  · rw [if_pos hand]
    unfold flag_set.count_trailing_zeros
    rw [ctz_loop_some U c mask 0 fuel hmask hc hlow (by omega), Option.map_some',
      Nat.zero_add, shift_right_unsigned U hU _ c hand_lt]
    have hsh : (v &&& mask) >>> c ≤ v &&& mask := by
      rw [Nat.shiftRight_eq_div_pow]
      exact Nat.div_le_self _ _
    rw [to_value_type_eq U _ (by omega), Nat.mod_eq_of_lt (by omega)]

theorem to_promoted_zero (U : integral_type) : to_promoted U 0 = 0 := by
  cases U <;> decide

theorem get_cond_ne_zero (U : integral_type) (mask : Nat)
    (h : to_promoted U mask &&& minus_one (promoted U) (to_promoted U mask) ≠ 0) :
    mask ≠ 0 := by
  intro h0
  apply h
  rw [h0, to_promoted_zero, Nat.zero_and]

theorem count_trailing_zeros_spec (U : integral_type) (mask : Nat) (hmask : mask < 2 ^ U.bits)
    (hne : mask ≠ 0) :
    ∃ c, c ≤ U.bits - 1 ∧ mask.testBit c = true ∧ (∀ i, i < c → mask.testBit i = false)
      ∧ (∀ fuel, c < fuel → flag_set.count_trailing_zeros U fuel mask = some c)
      ∧ (∀ fuel, fuel ≤ c → flag_set.count_trailing_zeros U fuel mask = none) := by
  obtain ⟨c, hc, hlow⟩ := exists_lowest_set_bit mask hne
  have hcw : c < U.bits := testBit_lt_of_lt_two_pow mask c U.bits hmask hc
  refine ⟨c, by omega, hc, hlow, fun fuel hfuel => ?_, fun fuel hfuel => ?_⟩
  · unfold flag_set.count_trailing_zeros
    rw [ctz_loop_some U c mask 0 fuel hmask hc hlow hfuel, Nat.zero_add]
  · unfold flag_set.count_trailing_zeros
    exact ctz_loop_none U c mask 0 fuel hmask hc hlow hfuel

theorem get_isSome (U : integral_type) (self : flag_set) (mask fuel : Nat)
    (hmask : mask < 2 ^ U.bits) (hfuel : U.bits ≤ fuel) :
    (flag_set.get U fuel self mask).isSome = true := by
  unfold flag_set.get
  dsimp only
  by_cases h : to_promoted U mask &&& minus_one (promoted U) (to_promoted U mask) ≠ 0
  · obtain ⟨c, hcw, _, _, hsome, _⟩ :=
      count_trailing_zeros_spec U mask hmask (get_cond_ne_zero U mask h)
    obtain ⟨k, hk⟩ := integral_type_bits_pos U
    rw [if_pos h, hsome fuel (by omega)]
    rfl
  · rw [if_neg h]
    rfl

/-! ## The collisions of `hash_int` -/

/-- Equal hashes force a linear relation between the halves of the inputs. -/
theorem hash_int_halves_relation (p q : Nat) (hp : p < 2 ^ 64) (hq : q < 2 ^ 64)
    (h : hash_int p = hash_int q) :
    (p % 2 ^ 32) * 0x205a533f + (p / 2 ^ 32) * 0xc89f554d
      = (q % 2 ^ 32) * 0x205a533f + (q / 2 ^ 32) * 0xc89f554d := by
  have h1 := hash_int_sum_modEq p q hp hq h
  have hlp : p % 2 ^ 32 < 2 ^ 32 := Nat.mod_lt _ (by positivity)
  have hlq : q % 2 ^ 32 < 2 ^ 32 := Nat.mod_lt _ (by positivity)
  have hhp : p / 2 ^ 32 < 2 ^ 32 := by omega
  have hhq : q / 2 ^ 32 < 2 ^ 32 := by omega
  generalize p % 2 ^ 32 = lp at h1 hlp ⊢
  generalize q % 2 ^ 32 = lq at h1 hlq ⊢
  generalize p / 2 ^ 32 = up at h1 hhp ⊢
  generalize q / 2 ^ 32 = uq at h1 hhq ⊢
  have b1 : lp * 0x205a533f + up * 0xc89f554d < 2 ^ 64 := by
    clear h1 h
    omega
  have b2 : lq * 0x205a533f + uq * 0xc89f554d < 2 ^ 64 := by
    clear h1 h
    omega
  have h2 := h1.mul_right 0x15eb88bf397b7909
  have hA : (0xA24BAED4963EE407 + 2 ^ 32 * 0x9FB21C651E98DF25) * 0x15eb88bf397b7909
      ≡ 0x205a533f [MOD 2 ^ 64] := by decide
  have hB : (2 ^ 32 * 0xA24BAED4963EE407 + 0x9FB21C651E98DF25) * 0x15eb88bf397b7909
      ≡ 0xc89f554d [MOD 2 ^ 64] := by decide
  have h3 : ∀ l u : Nat,
      (l * (0xA24BAED4963EE407 + 2 ^ 32 * 0x9FB21C651E98DF25)
        + u * (2 ^ 32 * 0xA24BAED4963EE407 + 0x9FB21C651E98DF25)) * 0x15eb88bf397b7909
      = l * ((0xA24BAED4963EE407 + 2 ^ 32 * 0x9FB21C651E98DF25) * 0x15eb88bf397b7909)
        + u * ((2 ^ 32 * 0xA24BAED4963EE407 + 0x9FB21C651E98DF25) * 0x15eb88bf397b7909) := by
    intro l u
    ring
  rw [h3, h3] at h2
  have h4 : ∀ l u : Nat,
      l * ((0xA24BAED4963EE407 + 2 ^ 32 * 0x9FB21C651E98DF25) * 0x15eb88bf397b7909)
        + u * ((2 ^ 32 * 0xA24BAED4963EE407 + 0x9FB21C651E98DF25) * 0x15eb88bf397b7909)
      ≡ l * 0x205a533f + u * 0xc89f554d [MOD 2 ^ 64] :=
    fun l u => Nat.ModEq.add (Nat.ModEq.mul_left l hA) (Nat.ModEq.mul_left u hB)
  have h5 : lp * 0x205a533f + up * 0xc89f554d ≡ lq * 0x205a533f + uq * 0xc89f554d
      [MOD 2 ^ 64] :=
    ((h4 lp up).symm.trans h2).trans (h4 lq uq)
  unfold Nat.ModEq at h5
  rw [Nat.mod_eq_of_lt b1, Nat.mod_eq_of_lt b2] at h5
  exact h5

/-- The solutions of the linear relation among halves below `2 ^ 32`. -/
theorem halves_relation_solutions (lp lq up uq : Nat) (hlp : lp < 2 ^ 32) (hlq : lq < 2 ^ 32)
    (h : lp * 0x205a533f + up * 0xc89f554d = lq * 0x205a533f + uq * 0xc89f554d) :
    (lp = lq ∧ up = uq) ∨ (lp = lq + 0xc89f554d ∧ uq = up + 0x205a533f)
      ∨ (lq = lp + 0xc89f554d ∧ up = uq + 0x205a533f) := by
  have hco : Nat.Coprime 0xc89f554d 0x205a533f := by norm_num
  rcases Nat.le_total lq lp with hle | hle
  · have huq : up ≤ uq := by linarith
    obtain ⟨d1, rfl⟩ := Nat.exists_eq_add_of_le hle
    obtain ⟨d2, rfl⟩ := Nat.exists_eq_add_of_le huq
    have hd : 0x205a533f * d1 = 0xc89f554d * d2 := by linarith
    have hdvd : 0xc89f554d ∣ d1 := hco.dvd_of_dvd_mul_left ⟨d2, hd⟩
    obtain ⟨k, rfl⟩ := hdvd
    have hd2 : d2 = 0x205a533f * k := by linarith
    clear h hd huq hle
    subst hd2
    have hk : k ≤ 1 := by omega
    interval_cases k
    · left
      exact ⟨rfl, rfl⟩
    · right
      left
      exact ⟨rfl, rfl⟩
  · have huq : uq ≤ up := by linarith
    obtain ⟨d1, rfl⟩ := Nat.exists_eq_add_of_le hle
    obtain ⟨d2, rfl⟩ := Nat.exists_eq_add_of_le huq
    have hd : 0x205a533f * d1 = 0xc89f554d * d2 := by linarith
    have hdvd : 0xc89f554d ∣ d1 := hco.dvd_of_dvd_mul_left ⟨d2, hd⟩
    obtain ⟨k, rfl⟩ := hdvd
    have hd2 : d2 = 0x205a533f * k := by linarith
    clear h hd huq hle
    subst hd2
    have hk : k ≤ 1 := by omega
    interval_cases k
    · left
      exact ⟨rfl, rfl⟩
    · right
      right
      exact ⟨rfl, rfl⟩

theorem hash_int_sum_shift (l u : Nat) :
    ((l + 0xc89f554d) * (0xA24BAED4963EE407 + 2 ^ 32 * 0x9FB21C651E98DF25)
        + u * (2 ^ 32 * 0xA24BAED4963EE407 + 0x9FB21C651E98DF25)) % 2 ^ 64
      = (l * (0xA24BAED4963EE407 + 2 ^ 32 * 0x9FB21C651E98DF25)
        + (u + 0x205a533f) * (2 ^ 32 * 0xA24BAED4963EE407 + 0x9FB21C651E98DF25)) % 2 ^ 64 := by
  omega

/-- The collisions of `hash_int`: two 64-bit inputs have the same hash exactly
when they are equal, or their lower halves differ by `0xc89f554d` and their
upper halves by `0x205a533f` in the opposite direction. -/
theorem hash_int_eq_iff (p q : Nat) (hp : p < 2 ^ 64) (hq : q < 2 ^ 64) :
    hash_int p = hash_int q ↔
      (p = q
        ∨ (p % 2 ^ 32 = q % 2 ^ 32 + 0xc89f554d ∧ q / 2 ^ 32 = p / 2 ^ 32 + 0x205a533f)
        ∨ (q % 2 ^ 32 = p % 2 ^ 32 + 0xc89f554d ∧ p / 2 ^ 32 = q / 2 ^ 32 + 0x205a533f)) := by
  constructor
  · intro h
    have hsol := halves_relation_solutions (p % 2 ^ 32) (q % 2 ^ 32) (p / 2 ^ 32) (q / 2 ^ 32)
      (Nat.mod_lt _ (by positivity)) (Nat.mod_lt _ (by positivity))
      (hash_int_halves_relation p q hp hq h)
    rcases hsol with ⟨h1, h2⟩ | hsol | hsol
    · left
      omega
    · exact Or.inr (Or.inl hsol)
    · exact Or.inr (Or.inr hsol)
  · intro h
    rw [hash_int_eq p hp, hash_int_eq q hq, hash_int_sum_halves p, hash_int_sum_halves q]
    apply congrArg rotate_right_32
    rcases h with h | ⟨h1, h2⟩ | ⟨h1, h2⟩
    · rw [h]
    · rw [h1, h2]
      exact hash_int_sum_shift _ _
    · rw [h1, h2]
      exact (hash_int_sum_shift _ _).symm

theorem hash_int_inj_of_canonical (va_bits p q : Nat) (hva : va_bits = 48 ∨ va_bits = 57)
    (hp : canonical_address va_bits p) (hq : canonical_address va_bits q)
    (h : hash_int p = hash_int q) : p = q := by
  unfold canonical_address at hp hq
  have hp64 : p < 2 ^ 64 := by
    rcases hva with rfl | rfl <;> rcases hp with hp | hp <;> omega
  have hq64 : q < 2 ^ 64 := by
    rcases hva with rfl | rfl <;> rcases hq with hq | hq <;> omega
  have hcases := (hash_int_eq_iff p q hp64 hq64).mp h
  clear h
  rcases hva with rfl | rfl <;> omega

/-! ## The claims -/

/-- Claim C1: for every pointer and every length `len`, `hash_bytes` is the
reference MurmurHash64A (`m = 0xc6a4a7935bd1e995`, `seed = 0xe17a1465`,
`r = 47`, arithmetic modulo `2 ^ 64`) of the `len` bytes behind the pointer;
in particular `hash_bytes(data, len)` is the reference hash of `data` for every
byte sequence `data` of length `len`. -/
theorem hash_bytes_is_MurmurHash64A :
    (∀ (ptr : BytePtr) (len : Nat), hash_bytes ptr len = MurmurHash64A (bytes_at ptr len))
    ∧ (∀ data : List Byte, hash_bytes (ptr_of data) data.length = MurmurHash64A data) := by
  refine ⟨hash_bytes_eq_reference, fun data => ?_⟩
  rw [hash_bytes_eq_reference, bytes_at_ptr_of]

/-- Claim C2: provided the natural alignment of every pool category is at most
`MAX_ALLOCATION_ALIGNMENT`, `allocate_memory` under either failure policy ends
in a failed assertion exactly when the pool tag is `0`, or the priority level
is above `DISPATCH_LEVEL`, or the alignment exceeds `MAX_ALLOCATION_ALIGNMENT`;
a run that ends so made no call of a primitive, and every other run called the
primitive allocator exactly once, with the pool category and tag of the
request, and nothing else. -/
theorem allocate_fatal_iff_contract_violation (c : heap_constants) (k : Kernel)
    (request : alloc_request)
    (hnat : ∀ pool_type, get_max_alignment_for_pool c pool_type ≤ c.MAX_ALLOCATION_ALIGNMENT) :
    ∀ r ∈ [allocate_memory_DoNothing c k request, allocate_memory_ThrowException c k request],
      (r.fatal ↔ (request.pool_tag = 0 ∨ c.DISPATCH_LEVEL < k.get_current_irql
          ∨ c.MAX_ALLOCATION_ALIGNMENT < request.alignment))
      ∧ (r.fatal → r.calls = [])
      ∧ (¬ r.fatal → ∃ bytes_count, r.calls
          = [KernelCall.ExAllocatePoolWithTag request.pool_type bytes_count request.pool_tag]) := by
  have hc := allocate_impl_contract c k request (hnat request.pool_type)
  intro r hr
  simp only [List.mem_cons, List.mem_singleton, List.not_mem_nil, or_false] at hr
  rcases hr with rfl | rfl
  · exact hc
  · rw [allocate_memory_ThrowException_fatal, allocate_memory_ThrowException_calls]
    exact hc

/-- Witness of claim C2 on the x64 constants: a request with alignment 8192,
beyond the 4096 maximum, ends in a failed assertion with no primitive call. -/
theorem allocate_fatal_iff_contract_violation_witness :
    (∀ pool_type, get_max_alignment_for_pool x64_constants pool_type
        ≤ x64_constants.MAX_ALLOCATION_ALIGNMENT)
    ∧ (allocate_memory_DoNothing x64_constants kernel_ok
        ⟨64, .NonPagedPool, 8192, 0x54534554⟩).fatal
    ∧ (allocate_memory_DoNothing x64_constants kernel_ok
        ⟨64, .NonPagedPool, 8192, 0x54534554⟩).calls = [] := by
  have hnat : ∀ pool_type, get_max_alignment_for_pool x64_constants pool_type
      ≤ x64_constants.MAX_ALLOCATION_ALIGNMENT := by
    intro pool_type
    cases pool_type <;> decide
  have h := allocate_fatal_iff_contract_violation x64_constants kernel_ok
    ⟨64, .NonPagedPool, 8192, 0x54534554⟩ hnat _ (List.mem_cons_self _ _)
  have hf := h.1.mpr (Or.inr (Or.inr (by decide)))
  exact ⟨hnat, hf, h.2.1 hf⟩

/-- Claim C3: for a request with non-zero tag, issued at or below the dispatch
ceiling, whose alignment is at most the natural alignment of its pool category
(the cache-line alignment for the seven cache-aligned categories, the default
alignment for every other one), `allocate_impl` and the silent policy call the
primitive allocator exactly once, with the category, the unchanged byte count
and the tag of the request, and return its result; the signaling policy makes
the same single call and returns the result when it is not null. -/
theorem allocate_within_natural_alignment (c : heap_constants) (k : Kernel)
    (request : alloc_request)
    (htag : request.pool_tag ≠ 0)
    (hirql : k.get_current_irql ≤ c.DISPATCH_LEVEL)
    (halign : request.alignment ≤ get_max_alignment_for_pool c request.pool_type) :
    (get_max_alignment_for_pool c request.pool_type
      = if request.pool_type ∈ [pool_type_t.NonPagedPoolCacheAligned,
            pool_type_t.PagedPoolCacheAligned, pool_type_t.NonPagedPoolCacheAlignedMustS,
            pool_type_t.NonPagedPoolCacheAlignedSession,
            pool_type_t.PagedPoolCacheAlignedSession,
            pool_type_t.NonPagedPoolCacheAlignedMustSSession,
            pool_type_t.NonPagedPoolNxCacheAligned]
        then c.CACHE_LINE_ALLOCATION_ALIGNMENT else c.DEFAULT_ALLOCATION_ALIGNMENT)
    ∧ allocate_impl c k request
      = ⟨[KernelCall.ExAllocatePoolWithTag request.pool_type request.bytes_count
            request.pool_tag],
          Outcome.returned (k.ExAllocatePoolWithTag request.pool_type request.bytes_count
            request.pool_tag)⟩
    ∧ allocate_memory_DoNothing c k request = allocate_impl c k request
    ∧ (allocate_memory_ThrowException c k request).calls
      = [KernelCall.ExAllocatePoolWithTag request.pool_type request.bytes_count
          request.pool_tag]
    ∧ (k.ExAllocatePoolWithTag request.pool_type request.bytes_count request.pool_tag ≠ 0 →
        allocate_memory_ThrowException c k request = allocate_impl c k request) := by
  have himpl : allocate_impl c k request
      = ⟨[KernelCall.ExAllocatePoolWithTag request.pool_type request.bytes_count
            request.pool_tag],
          Outcome.returned (k.ExAllocatePoolWithTag request.pool_type request.bytes_count
            request.pool_tag)⟩ := by
    have h2 : ¬ c.DISPATCH_LEVEL < k.get_current_irql := by omega
    rw [allocate_impl_eq, if_neg htag, if_neg h2, if_pos halign]
  refine ⟨?_, himpl, rfl, ?_, ?_⟩
  · cases request.pool_type <;> rfl
  · rw [allocate_memory_ThrowException_calls, himpl]
  · intro hne
    rw [allocate_memory_ThrowException_eq, himpl]
    simp [hne]

/-- Witness of claim C3, the example of the claim: a 64-byte request with tag
`0x54534554` in the ordinary category with the default alignment is forwarded
as `(NonPagedPool, 64, 0x54534554)`. -/
theorem allocate_within_natural_alignment_witness :
    (0x54534554 : Nat) ≠ 0
    ∧ kernel_ok.get_current_irql ≤ x64_constants.DISPATCH_LEVEL
    ∧ (16 : Nat) ≤ get_max_alignment_for_pool x64_constants pool_type_t.NonPagedPool
    ∧ allocate_impl x64_constants kernel_ok ⟨64, .NonPagedPool, 16, 0x54534554⟩
      = ⟨[KernelCall.ExAllocatePoolWithTag .NonPagedPool 64 0x54534554],
          Outcome.returned 0x3000⟩ :=
  ⟨by decide, by decide, by decide,
    (allocate_within_natural_alignment x64_constants kernel_ok
      ⟨64, .NonPagedPool, 16, 0x54534554⟩ (by decide) (by decide) (by decide)).2.1⟩

/-- Claim C4: the two failure policies share the allocation logic. For every
request and every primitive allocator both make the same primitive calls (none,
or one call of the primitive allocator); when that call returns a non-null
handle both return that handle; when it returns null the silent policy returns
null and the signaling policy throws `bad_alloc`; the signaling policy throws
in no other case, and the silent policy never throws. -/
theorem failure_policies_agree (c : heap_constants) (k : Kernel) (request : alloc_request) :
    (allocate_memory_ThrowException c k request).calls
      = (allocate_memory_DoNothing c k request).calls
    ∧ (∀ call, (allocate_memory_DoNothing c k request).calls = [call] →
        ∃ bytes_count, call = KernelCall.ExAllocatePoolWithTag request.pool_type bytes_count
            request.pool_tag
          ∧ (k.ExAllocatePoolWithTag request.pool_type bytes_count request.pool_tag ≠ 0 →
              (allocate_memory_DoNothing c k request).outcome = Outcome.returned
                  (k.ExAllocatePoolWithTag request.pool_type bytes_count request.pool_tag)
              ∧ (allocate_memory_ThrowException c k request).outcome = Outcome.returned
                  (k.ExAllocatePoolWithTag request.pool_type bytes_count request.pool_tag))
          ∧ (k.ExAllocatePoolWithTag request.pool_type bytes_count request.pool_tag = 0 →
              (allocate_memory_DoNothing c k request).outcome = Outcome.returned 0
              ∧ (allocate_memory_ThrowException c k request).outcome
                = Outcome.thrown_bad_alloc))
    ∧ ((allocate_memory_ThrowException c k request).outcome = Outcome.thrown_bad_alloc ↔
        (allocate_memory_DoNothing c k request).outcome = Outcome.returned 0)
    ∧ (∀ handle, handle ≠ 0 →
        ((allocate_memory_ThrowException c k request).outcome = Outcome.returned handle ↔
          (allocate_memory_DoNothing c k request).outcome = Outcome.returned handle))
    ∧ (∀ msg,
        (allocate_memory_ThrowException c k request).outcome = Outcome.assertion_failed msg ↔
          (allocate_memory_DoNothing c k request).outcome = Outcome.assertion_failed msg)
    ∧ (allocate_memory_ThrowException c k request).outcome ≠ Outcome.returned 0
    ∧ (allocate_memory_DoNothing c k request).outcome ≠ Outcome.thrown_bad_alloc := by
  simp only [allocate_memory_DoNothing, allocate_memory_ThrowException_eq]
  rcases allocate_impl_cases c k request with ⟨msg, h⟩ | ⟨bytes_count, h⟩
  · simp [h]
  · rw [h]
    by_cases h0 : k.ExAllocatePoolWithTag request.pool_type bytes_count request.pool_tag = 0
    · simp [h0]
      intro handle hne heq
      exact hne heq.symm
    · simp only [if_neg h0]
      simp [h0]

/-- Claim C5: for a free request with a non-null handle, `deallocate_memory`
ends in a failed assertion without any primitive call when the tag is `0`, and
otherwise calls the primitive free operation exactly once, with that handle
and that tag, and returns with no assertion failing. -/
theorem deallocate_non_null (request : free_request) (hblock : request.memory_block ≠ 0) :
    (request.pool_tag = 0 →
      (deallocate_memory request).fatal ∧ (deallocate_memory request).calls = [])
    ∧ (request.pool_tag ≠ 0 →
      deallocate_memory request
        = ⟨[KernelCall.ExFreePoolWithTag request.memory_block request.pool_tag],
            Outcome.returned ()⟩
      ∧ ¬ (deallocate_memory request).fatal) := by
  rw [deallocate_memory_eq, if_neg hblock]
  unfold Run.fatal
  constructor
  · intro h0
    simp [h0]
  · intro h0
    simp [h0]

/-- Witness of claim C5: the handle `0x3000` with tag `0` is fatal, and with
tag `0x54534554` it is released by one call of the primitive. -/
theorem deallocate_non_null_witness :
    (0x3000 : Nat) ≠ 0
    ∧ (deallocate_memory ⟨0x3000, 0⟩).fatal
    ∧ deallocate_memory ⟨0x3000, 0x54534554⟩
      = ⟨[KernelCall.ExFreePoolWithTag 0x3000 0x54534554], Outcome.returned ()⟩ :=
  ⟨by decide,
    ((deallocate_non_null ⟨0x3000, 0⟩ (by decide)).1 rfl).1,
    ((deallocate_non_null ⟨0x3000, 0x54534554⟩ (by decide)).2 (by decide)).1⟩

/-- Claim C6: for a free request with a null handle, whatever its tag,
`deallocate_memory` returns normally with no primitive call and no failed
assertion; the assertion `invalid memory block` of `deallocate_impl`, which
fails on a null handle, never fails through `deallocate_memory`. -/
theorem deallocate_null_is_noop :
    (∀ pool_tag, deallocate_memory ⟨0, pool_tag⟩ = ⟨[], Outcome.returned ()⟩)
    ∧ (∀ pool_tag, ¬ (deallocate_memory ⟨0, pool_tag⟩).fatal)
    ∧ (∀ pool_tag, (deallocate_impl 0 pool_tag).outcome
        = Outcome.assertion_failed "invalid memory block")
    ∧ (∀ request, (deallocate_memory request).outcome
        ≠ Outcome.assertion_failed "invalid memory block") := by
  refine ⟨fun pool_tag => ?_, fun pool_tag => ?_, fun pool_tag => ?_, fun request => ?_⟩
  · rw [deallocate_memory_eq]
    simp
  · rw [deallocate_memory_eq]
    simp [Run.fatal]
  · simp [deallocate_impl, bind, Run.bind, crt_assert_with_msg]
  · rw [deallocate_memory_eq]
    split_ifs <;> simp

/-- Claim C7: for every 64-bit `x`, `hash_int x` is
`rotate_right((x * 0xA24BAED4963EE407 + rotate_right(x, 32) * 0x9FB21C651E98DF25) mod 2 ^ 64, 32)`,
where `rotr` by 32 is the rotation `rotate_right`, which keeps every bit of its
64-bit input: bit `i` of the result is bit `(i + 32) mod 64` of the input. -/
theorem hash_int_formula (x : Nat) (hx : x < 2 ^ 64) :
    hash_int x
      = rotate_right_32
          ((x * 0xA24BAED4963EE407 + rotate_right_32 x * 0x9FB21C651E98DF25) % 2 ^ 64)
    ∧ (∀ y, y < 2 ^ 64 → rotr y 32 = rotate_right_32 y)
    ∧ (∀ y, y < 2 ^ 64 → ∀ i, i < 64 →
        (rotate_right_32 y).testBit i = y.testBit ((i + 32) % 64)) :=
  ⟨hash_int_eq x hx, rotr_32_eq, fun y hy i hi => rotate_right_32_testBit y i hy hi⟩

/-- Witness of claim C7 at `x = 0xc89f554d`, whose hash is `0x2af9e91b1348062a`. -/
theorem hash_int_formula_witness :
    (0xc89f554d : Nat) < 2 ^ 64
    ∧ hash_int 0xc89f554d = 0x2af9e91b1348062a
    ∧ rotate_right_32
        ((0xc89f554d * 0xA24BAED4963EE407
          + rotate_right_32 0xc89f554d * 0x9FB21C651E98DF25) % 2 ^ 64)
      = 0x2af9e91b1348062a :=
  ⟨by decide, by decide,
    (hash_int_formula 0xc89f554d (by decide)).1.symm.trans (by decide)⟩

/-- Counterexample to claim C8 as stated, for every two 64-bit addresses: the
distinct 64-bit values `0xc89f554d` and `0x205a533f00000000` have the same
`hash_int`, and so have the pointers that hold them. The second value is not a
canonical address: it can be held by a pointer, not by the owner of an
object. -/
theorem hash_int_collision :
    (0xc89f554d : Nat) < 2 ^ 64
    ∧ (0x205a533f00000000 : Nat) < 2 ^ 64
    ∧ (0xc89f554d : Nat) ≠ 0x205a533f00000000
    ∧ hash_raw_ptr 0xc89f554d = hash_raw_ptr 0x205a533f00000000
    ∧ hash_unique_ptr ⟨0xc89f554d⟩ = hash_unique_ptr ⟨0x205a533f00000000⟩
    ∧ hash_shared_ptr ⟨0xc89f554d⟩ = hash_shared_ptr ⟨0x205a533f00000000⟩
    ∧ ¬ (∀ p q : Nat, p < 2 ^ 64 → q < 2 ^ 64 → p ≠ q → hash_int p ≠ hash_int q) := by
  have hcol : hash_int 0xc89f554d = hash_int 0x205a533f00000000 := by decide
  refine ⟨by decide, by decide, by decide, hcol, hcol, hcol, fun h => ?_⟩
  exact h 0xc89f554d 0x205a533f00000000 (by decide) (by decide) (by decide) hcol

/-- Claim C8, amended: the hash of a raw pointer, of a `unique_ptr` and of a
`shared_ptr` is `hash_int` of the held address, and two distinct 64-bit
addresses hash differently except exactly when their lower 32-bit halves differ
by `0xc89f554d` and their upper halves by `0x205a533f` in the opposite
direction. In particular two distinct canonical addresses of the x64 target
(48 or 57 address bits), the addresses that objects have, always hash
differently, and so do two distinct addresses that agree in their upper or in
their lower 32 bits. -/
theorem pointer_hash_is_hash_int_of_address :
    (∀ ptr : Nat, hash_raw_ptr ptr = hash_int ptr)
    ∧ (∀ ptr : unique_ptr, hash_unique_ptr ptr = hash_int ptr.get)
    ∧ (∀ ptr : shared_ptr, hash_shared_ptr ptr = hash_int ptr.get)
    ∧ (∀ p q : Nat, p < 2 ^ 64 → q < 2 ^ 64 → p ≠ q →
        (hash_int p = hash_int q ↔
          ((p % 2 ^ 32 = q % 2 ^ 32 + 0xc89f554d ∧ q / 2 ^ 32 = p / 2 ^ 32 + 0x205a533f)
            ∨ (q % 2 ^ 32 = p % 2 ^ 32 + 0xc89f554d
              ∧ p / 2 ^ 32 = q / 2 ^ 32 + 0x205a533f))))
    ∧ (∀ va_bits p q : Nat, va_bits = 48 ∨ va_bits = 57 →
        canonical_address va_bits p → canonical_address va_bits q → p ≠ q →
        hash_int p ≠ hash_int q)
    ∧ (∀ p q : Nat, p < 2 ^ 64 → q < 2 ^ 64 → p ≠ q →
        (p / 2 ^ 32 = q / 2 ^ 32 ∨ p % 2 ^ 32 = q % 2 ^ 32) →
        hash_int p ≠ hash_int q) := by
  refine ⟨fun _ => rfl, fun _ => rfl, fun _ => rfl, ?_, ?_, ?_⟩
  · intro p q hp hq hne
    rw [hash_int_eq_iff p q hp hq]
    constructor
    · intro h
      rcases h with h | h
      · exact absurd h hne
      · exact h
    · intro h
      exact Or.inr h
  · intro va_bits p q hva hp hq hne heq
    exact hne (hash_int_inj_of_canonical va_bits p q hva hp hq heq)
  · intro p q hp hq hne hhalf heq
    rcases hhalf with hup | hlo
    · exact hne (hash_int_inj_of_same_upper p q hp hq hup heq)
    · exact hne (hash_int_inj_of_same_lower p q hp hq hlo heq)

/-- Witness of the amended claim C8: the kernel addresses `0xFFFF800000001000`
and `0xFFFF800100002000` are canonical with 48 address bits, differ in both
halves, and hash differently. -/
theorem pointer_hash_is_hash_int_of_address_witness :
    canonical_address 48 0xFFFF800000001000
    ∧ canonical_address 48 0xFFFF800100002000
    ∧ (0xFFFF800000001000 : Nat) ≠ 0xFFFF800100002000
    ∧ hash_int 0xFFFF800000001000 ≠ hash_int 0xFFFF800100002000 :=
  ⟨by decide, by decide, by decide,
    pointer_hash_is_hash_int_of_address.2.2.2.2.1 48 0xFFFF800000001000 0xFFFF800100002000
      (Or.inl rfl) (by decide) (by decide) (by decide)⟩

/-- Claim C9: for a request with non-zero tag, issued at or below the dispatch
ceiling, whose alignment exceeds the natural alignment of its category but not
`MAX_ALLOCATION_ALIGNMENT`, the allocation calls the primitive allocator
exactly once, with the category and the tag of the request and the size
`max(bytes_count, MAX_ALLOCATION_ALIGNMENT)`, which is at least the requested
byte count and at least `MAX_ALLOCATION_ALIGNMENT` (one page). -/
theorem allocate_over_aligned (c : heap_constants) (k : Kernel) (request : alloc_request)
    (htag : request.pool_tag ≠ 0)
    (hirql : k.get_current_irql ≤ c.DISPATCH_LEVEL)
    (hover : get_max_alignment_for_pool c request.pool_type < request.alignment)
    (hmax : request.alignment ≤ c.MAX_ALLOCATION_ALIGNMENT) :
    allocate_impl c k request
      = ⟨[KernelCall.ExAllocatePoolWithTag request.pool_type
            (max request.bytes_count c.MAX_ALLOCATION_ALIGNMENT) request.pool_tag],
          Outcome.returned (k.ExAllocatePoolWithTag request.pool_type
            (max request.bytes_count c.MAX_ALLOCATION_ALIGNMENT) request.pool_tag)⟩
    ∧ (allocate_memory_DoNothing c k request).calls
      = [KernelCall.ExAllocatePoolWithTag request.pool_type
          (max request.bytes_count c.MAX_ALLOCATION_ALIGNMENT) request.pool_tag]
    ∧ (allocate_memory_ThrowException c k request).calls
      = [KernelCall.ExAllocatePoolWithTag request.pool_type
          (max request.bytes_count c.MAX_ALLOCATION_ALIGNMENT) request.pool_tag]
    ∧ request.bytes_count ≤ max request.bytes_count c.MAX_ALLOCATION_ALIGNMENT
    ∧ c.MAX_ALLOCATION_ALIGNMENT ≤ max request.bytes_count c.MAX_ALLOCATION_ALIGNMENT := by
  have himpl : allocate_impl c k request
      = ⟨[KernelCall.ExAllocatePoolWithTag request.pool_type
            (max request.bytes_count c.MAX_ALLOCATION_ALIGNMENT) request.pool_tag],
          Outcome.returned (k.ExAllocatePoolWithTag request.pool_type
            (max request.bytes_count c.MAX_ALLOCATION_ALIGNMENT) request.pool_tag)⟩ := by
    have h2 : ¬ c.DISPATCH_LEVEL < k.get_current_irql := by omega
    have h3 : ¬ request.alignment ≤ get_max_alignment_for_pool c request.pool_type := by omega
    have h4 : ¬ c.MAX_ALLOCATION_ALIGNMENT < request.alignment := by omega
    rw [allocate_impl_eq, if_neg htag, if_neg h2, if_neg h3, if_neg h4]
  refine ⟨himpl, ?_, ?_, le_max_left _ _, le_max_right _ _⟩
  · rw [allocate_memory_DoNothing, himpl]
  · rw [allocate_memory_ThrowException_calls, himpl]

/-- Witness of claim C9 on the x64 constants: a 64-byte request with alignment
256 in the ordinary category asks the primitive for 4096 bytes. -/
theorem allocate_over_aligned_witness :
    (0x54534554 : Nat) ≠ 0
    ∧ kernel_ok.get_current_irql ≤ x64_constants.DISPATCH_LEVEL
    ∧ get_max_alignment_for_pool x64_constants pool_type_t.NonPagedPool < 256
    ∧ (256 : Nat) ≤ x64_constants.MAX_ALLOCATION_ALIGNMENT
    ∧ allocate_impl x64_constants kernel_ok ⟨64, .NonPagedPool, 256, 0x54534554⟩
      = ⟨[KernelCall.ExAllocatePoolWithTag .NonPagedPool 4096 0x54534554],
          Outcome.returned 0x3000⟩ :=
  ⟨by decide, by decide, by decide, by decide,
    (allocate_over_aligned x64_constants kernel_ok ⟨64, .NonPagedPool, 256, 0x54534554⟩
      (by decide) (by decide) (by decide) (by decide)).1⟩

/-- Claim C10: let the page size be a power of two, let
`MAX_ALLOCATION_ALIGNMENT` be the page size, and let the primitive allocator
answer every request of at least one page with a page-aligned address. Then for
every request whose alignment is a power of two, exceeds the natural alignment
of its category and is at most one page, every non-null handle that
`allocate_memory` returns, under either policy, is a multiple of the requested
alignment. -/
theorem over_aligned_handle_is_aligned (c : heap_constants) (k : Kernel)
    (request : alloc_request) (PAGE_SIZE : Nat)
    (hpage : ∃ j, PAGE_SIZE = 2 ^ j)
    (hmax : c.MAX_ALLOCATION_ALIGNMENT = PAGE_SIZE)
    (hprim : ∀ pool_type bytes_count pool_tag, PAGE_SIZE ≤ bytes_count →
      PAGE_SIZE ∣ k.ExAllocatePoolWithTag pool_type bytes_count pool_tag)
    (hpow : ∃ i, request.alignment = 2 ^ i)
    (hover : get_max_alignment_for_pool c request.pool_type < request.alignment)
    (hle : request.alignment ≤ PAGE_SIZE) :
    ∀ r ∈ [allocate_memory_DoNothing c k request, allocate_memory_ThrowException c k request],
      ∀ handle, r.outcome = Outcome.returned handle → handle ≠ 0 →
        request.alignment ∣ handle := by
  obtain ⟨j, hj⟩ := hpage
  obtain ⟨i, hi⟩ := hpow
  have hdvd : request.alignment ∣ PAGE_SIZE := by
    rw [hi, hj]
    rw [hi, hj] at hle
    exact pow_dvd_pow 2 ((Nat.pow_le_pow_iff_right (by decide)).mp hle)
  have hkey : ∀ handle, (allocate_impl c k request).outcome = Outcome.returned handle →
      request.alignment ∣ handle := by
    intro handle hret
    rw [allocate_impl_eq] at hret
    have h3 : ¬ request.alignment ≤ get_max_alignment_for_pool c request.pool_type := by omega
    have h4 : ¬ c.MAX_ALLOCATION_ALIGNMENT < request.alignment := by omega
    rw [if_neg h3, if_neg h4] at hret
    split_ifs at hret
    simp only [Outcome.returned.injEq] at hret
    rw [← hret]
    exact dvd_trans hdvd (hprim _ _ _ (by rw [← hmax]; exact le_max_right _ _))
  intro r hr handle hret hne
  simp only [List.mem_cons, List.mem_singleton, List.not_mem_nil, or_false] at hr
  rcases hr with rfl | rfl
  · exact hkey handle hret
  · rw [allocate_memory_ThrowException_eq] at hret
    cases hout : (allocate_impl c k request).outcome with
    | returned memory =>
      rw [hout] at hret
      by_cases hm : memory = 0
      · simp [hm] at hret
      · simp [hm] at hret
        exact hret ▸ hkey memory hout
    | assertion_failed msg => simp [hout] at hret
    | thrown_bad_alloc => simp [hout] at hret

/-- Witness of claim C10 on the x64 constants with 4096-byte pages: a request
with alignment 256 in the ordinary category returns the handle `0x3000`, a
multiple of 256. -/
theorem over_aligned_handle_is_aligned_witness :
    (∃ j, (4096 : Nat) = 2 ^ j)
    ∧ x64_constants.MAX_ALLOCATION_ALIGNMENT = 4096
    ∧ (∀ pool_type bytes_count pool_tag, 4096 ≤ bytes_count →
        4096 ∣ kernel_ok.ExAllocatePoolWithTag pool_type bytes_count pool_tag)
    ∧ (∃ i, (256 : Nat) = 2 ^ i)
    ∧ get_max_alignment_for_pool x64_constants pool_type_t.NonPagedPool < 256
    ∧ (256 : Nat) ≤ 4096
    ∧ (allocate_memory_DoNothing x64_constants kernel_ok
        ⟨64, .NonPagedPool, 256, 0x54534554⟩).outcome = Outcome.returned 0x3000
    ∧ (256 : Nat) ∣ 0x3000 :=
  ⟨⟨12, by decide⟩, rfl, fun _ _ _ _ => ⟨3, rfl⟩, ⟨8, by decide⟩, by decide, by decide,
    by decide,
    over_aligned_handle_is_aligned x64_constants kernel_ok
      ⟨64, .NonPagedPool, 256, 0x54534554⟩ 4096 ⟨12, by decide⟩ rfl
      (fun _ _ _ _ => ⟨3, rfl⟩) ⟨8, by decide⟩ (by decide) (by decide)
      _ (List.mem_cons_self _ _) 0x3000 (by decide) (by decide)⟩

/-- Claim C11: `hash_bytes` of the empty input is, for every pointer, the
constant obtained from the seed alone: with `s = 0xe17a1465` and
`m = 0xc6a4a7935bd1e995`, `h0 = s XOR (s >> 47) = s`, `h1 = h0 * m mod 2 ^ 64`,
result `h1 XOR (h1 >> 47)`, which is `0x9bfae0a4e613fc3c`. -/
theorem hash_bytes_empty :
    (0xe17a1465 ^^^ (0xe17a1465 >>> 47) : Nat) = 0xe17a1465
    ∧ ∀ ptr : BytePtr,
        hash_bytes ptr 0
          = ((0xe17a1465 ^^^ (0xe17a1465 >>> 47)) * 0xc6a4a7935bd1e995 % 2 ^ 64)
            ^^^ (((0xe17a1465 ^^^ (0xe17a1465 >>> 47)) * 0xc6a4a7935bd1e995 % 2 ^ 64) >>> 47)
        ∧ hash_bytes ptr 0 = 0x9bfae0a4e613fc3c := by
  refine ⟨by decide, fun ptr => ?_⟩
  have h : hash_bytes ptr 0
      = ((0xe17a1465 ^^^ (0xe17a1465 >>> 47)) * 0xc6a4a7935bd1e995 % 2 ^ 64)
        ^^^ (((0xe17a1465 ^^^ (0xe17a1465 >>> 47)) * 0xc6a4a7935bd1e995 % 2 ^ 64) >>> 47) :=
    rfl
  exact ⟨h, h.trans (by decide)⟩

/-- Claim C12: `hash_int 0` is the literal `0`. -/
theorem hash_int_zero : hash_int 0 = 0 := by
  decide

/-- Claim C13: `hash_bytes` depends on the first `len` bytes only: two
buffers that agree on the bytes at offsets `0 .. len - 1`, whatever lies
behind, have the same hash; the hash is a function of those `len` bytes. -/
theorem hash_bytes_deterministic (p q : BytePtr) (len : Nat)
    (hagree : ∀ i, i < len → p i = q i) :
    hash_bytes p len = hash_bytes q len
    ∧ hash_bytes p len = MurmurHash64A (bytes_at p len) := by
  have hbytes : bytes_at p len = bytes_at q len := by
    unfold bytes_at
    apply List.map_congr_left
    intro i hi
    exact hagree i (List.mem_range.mp hi)
  refine ⟨?_, hash_bytes_eq_reference p len⟩
  rw [hash_bytes_eq_reference, hash_bytes_eq_reference, hbytes]

/-- Witness of claim C13: two buffers that agree on their first three bytes
and differ in the fourth have the same hash at length 3, and different hashes
at length 4. -/
theorem hash_bytes_deterministic_witness :
    (∀ i, i < 3 → ptr_of [97, 98, 99, 1] i = ptr_of [97, 98, 99, 2] i)
    ∧ hash_bytes (ptr_of [97, 98, 99, 1]) 3 = hash_bytes (ptr_of [97, 98, 99, 2]) 3
    ∧ hash_bytes (ptr_of [97, 98, 99, 1]) 4 ≠ hash_bytes (ptr_of [97, 98, 99, 2]) 4 := by
  have hagree : ∀ i, i < 3 → ptr_of [97, 98, 99, 1] i = ptr_of [97, 98, 99, 2] i := by
    intro i hi
    interval_cases i <;> rfl
  exact ⟨hagree,
    (hash_bytes_deterministic (ptr_of [97, 98, 99, 1]) (ptr_of [97, 98, 99, 2]) 3 hagree).1,
    by decide⟩

/-- Claim C14: the hash of an enumeration value `e` is the integer hash of its
underlying value, `hash_int(u64(underlying(e)))`, where the conversion to
`uint64_t` keeps an unsigned or non-negative value and extends a negative
value of a signed type with ones (sign extension); `hash_int` is applied once:
the result is that of `HASH_INT` for the underlying type, and it is not the
re-mix `hash_int(hash_int(...))` of the generic wrapper. -/
theorem hash_enum_is_hash_int (underlying_t : integral_type) (e : Nat)
    (he : e < 2 ^ underlying_t.bits) :
    hash_enum underlying_t e = hash_int (static_cast_uint64 underlying_t e)
    ∧ hash_enum underlying_t e = HASH_INT underlying_t e
    ∧ static_cast_uint64 underlying_t e < 2 ^ 64
    ∧ ((underlying_t.is_signed = false ∨ e < 2 ^ (underlying_t.bits - 1)) →
        static_cast_uint64 underlying_t e = e)
    ∧ ((underlying_t.is_signed = true ∧ 2 ^ (underlying_t.bits - 1) ≤ e) →
        static_cast_uint64 underlying_t e = e + (2 ^ 64 - 2 ^ underlying_t.bits))
    ∧ (∃ e1, e1 < 2 ^ underlying_t.bits
        ∧ hash_enum underlying_t e1 ≠ generic_hash (HASH_INT underlying_t) e1
        ∧ hash_enum underlying_t e1
          ≠ hash_int (hash_int (static_cast_uint64 underlying_t e1))) := by
  refine ⟨rfl, rfl, ?_, ?_, ?_, ⟨1, ?_, ?_, ?_⟩⟩
  · unfold static_cast_uint64 convert
    exact Nat.mod_lt _ (by positivity)
  · intro h
    rw [static_cast_uint64_eq _ _ he, if_neg]
    rintro ⟨h1, h2⟩
    rcases h with h | h
    · rw [h] at h1
      exact Bool.noConfusion h1
    · omega
  · intro h
    rw [static_cast_uint64_eq _ _ he, if_pos h]
  · cases underlying_t <;> decide
  · cases underlying_t <;> decide
  · cases underlying_t <;> decide

/-- Witness of claim C14: for an enumeration with underlying type `int8_t` the
value `-1` (bit pattern `0xff`) is hashed as `hash_int(0xffffffffffffffff)`. -/
theorem hash_enum_is_hash_int_witness :
    (0xff : Nat) < 2 ^ integral_type.int8.bits
    ∧ hash_enum .int8 0xff = hash_int 0xffffffffffffffff :=
  ⟨by decide,
    (hash_enum_is_hash_int .int8 0xff (by decide)).1.trans (by decide)⟩

/-- Claim C19: `hash_int` is injective on the inputs below `2 ^ 32`, and more
generally on 64-bit inputs that share their upper 32 bits; on inputs below
`2 ^ 32` it is
`rotate_right(x * (0xA24BAED4963EE407 + 2 ^ 32 * 0x9FB21C651E98DF25) mod 2 ^ 64, 32)`
with an odd multiplier; hence the hashes `HASH_INT` of the values of an
integer type of at most 32 bits (`bool`, `char`, `short`, `int`, signed or
unsigned, and the enumerations over them) never collide. -/
theorem hash_int_injective_below_two_pow_32 :
    (∀ x y : Nat, x < 2 ^ 32 → y < 2 ^ 32 → hash_int x = hash_int y → x = y)
    ∧ (∀ x y : Nat, x < 2 ^ 64 → y < 2 ^ 64 → x / 2 ^ 32 = y / 2 ^ 32 →
        hash_int x = hash_int y → x = y)
    ∧ (∀ x : Nat, x < 2 ^ 32 →
        hash_int x
          = rotate_right_32
              (x * (0xA24BAED4963EE407 + 2 ^ 32 * 0x9FB21C651E98DF25) % 2 ^ 64))
    ∧ (0xA24BAED4963EE407 + 2 ^ 32 * 0x9FB21C651E98DF25) % 2 = 1
    ∧ (∀ Ty : integral_type, Ty.bits ≤ 32 →
        ∀ a b : Nat, a < 2 ^ Ty.bits → b < 2 ^ Ty.bits →
          HASH_INT Ty a = HASH_INT Ty b → a = b) := by
  have h32 : ∀ x y : Nat, x < 2 ^ 32 → y < 2 ^ 32 → hash_int x = hash_int y → x = y := by
    intro x y hx hy h
    have hx0 : x / 2 ^ 32 = 0 := Nat.div_eq_of_lt hx
    have hy0 : y / 2 ^ 32 = 0 := Nat.div_eq_of_lt hy
    exact hash_int_inj_of_same_upper x y (by omega) (by omega) (by rw [hx0, hy0]) h
  refine ⟨h32, hash_int_inj_of_same_upper, hash_int_eq_of_lt_two_pow_32, by decide, ?_⟩
  intro Ty hbits a b ha hb h
  have hlt : ∀ v, static_cast_uint64 Ty v < 2 ^ 64 := by
    intro v
    unfold static_cast_uint64 convert
    exact Nat.mod_lt _ (by positivity)
  exact static_cast_uint64_injective Ty a b ha hb
    (hash_int_inj_of_upper_zero_or_ones _ _ (hlt a) (hlt b)
      (static_cast_uint64_upper Ty a ha hbits) (static_cast_uint64_upper Ty b hb hbits) h)

/-- Witness of claim C19: the inputs `1` and `2` are below `2 ^ 32` and have
different hashes. -/
theorem hash_int_injective_below_two_pow_32_witness :
    (1 : Nat) < 2 ^ 32 ∧ (2 : Nat) < 2 ^ 32 ∧ hash_int 1 ≠ hash_int 2 :=
  ⟨by decide, by decide,
    fun h => absurd (hash_int_injective_below_two_pow_32.1 1 2 (by decide) (by decide) h)
      (by decide)⟩

/-- Counterexample to claim C16 as stated: for a flag `a` whose value is `0`
(a `none` enumerator) and any flag `b`, here of value `2`,
`(flag_set(a) | flag_set(b)).has_any_of(a)` is false. -/
theorem has_any_of_zero_flag :
    flag_set.has_any_of .uint8
        (flag_set.or .uint8 (flag_set.of_enum 0) (flag_set.of_enum 2)) (flag_set.of_enum 0)
      = false
    ∧ ¬ (∀ (value_type : integral_type) (a b : Nat),
        a < 2 ^ value_type.bits → b < 2 ^ value_type.bits →
        flag_set.has_any_of value_type
          (flag_set.or value_type (flag_set.of_enum a) (flag_set.of_enum b))
          (flag_set.of_enum a) = true) := by
  have h : flag_set.has_any_of .uint8
      (flag_set.or .uint8 (flag_set.of_enum 0) (flag_set.of_enum 2)) (flag_set.of_enum 0)
      = false := by decide
  refine ⟨h, fun hall => ?_⟩
  have h2 := hall .uint8 0 2 (by decide) (by decide)
  rw [h] at h2
  exact Bool.noConfusion h2

/-- Claim C16, amended: for all flags `a` and `b` of one enumeration,
`(flag_set(a) | flag_set(b)).has_any_of(a)` is true exactly when the value of
`a` is not `0`; `has_any_of(other)` is true iff the bitwise AND of the two
underlying values is non-zero, and `operator|` yields the flag set holding the
bitwise OR. -/
theorem has_any_of_or_self (value_type : integral_type) (a b : Nat)
    (ha : a < 2 ^ value_type.bits) (hb : b < 2 ^ value_type.bits) :
    (flag_set.has_any_of value_type
        (flag_set.or value_type (flag_set.of_enum a) (flag_set.of_enum b))
        (flag_set.of_enum a) = true ↔ a ≠ 0)
    ∧ (flag_set.or value_type (flag_set.of_enum a) (flag_set.of_enum b)).value = a ||| b
    ∧ (∀ x y : flag_set, x.value < 2 ^ value_type.bits → y.value < 2 ^ value_type.bits →
        (flag_set.has_any_of value_type x y = true ↔ x.value &&& y.value ≠ 0)) := by
  have hor : (flag_set.or value_type (flag_set.of_enum a) (flag_set.of_enum b)).value
      = a ||| b :=
    flag_set_or_value value_type _ _ ha hb
  refine ⟨?_, hor, fun x y hx hy => flag_set_has_any_of_iff value_type x y hx hy⟩
  rw [flag_set_has_any_of_iff value_type
      (flag_set.or value_type (flag_set.of_enum a) (flag_set.of_enum b)) (flag_set.of_enum a)
      (by rw [hor]; exact Nat.or_lt_two_pow ha hb) ha,
    hor]
  show (a ||| b) &&& a ≠ 0 ↔ a ≠ 0
  rw [nat_or_and_self]

/-- Witness of the amended claim C16: with the flags `1` and `2` over
`uint8_t`, `(flag_set(1) | flag_set(2)).has_any_of(1)` is true. -/
theorem has_any_of_or_self_witness :
    (1 : Nat) < 2 ^ integral_type.uint8.bits ∧ (2 : Nat) < 2 ^ integral_type.uint8.bits
    ∧ flag_set.has_any_of .uint8
        (flag_set.or .uint8 (flag_set.of_enum 1) (flag_set.of_enum 2)) (flag_set.of_enum 1)
      = true :=
  ⟨by decide, by decide,
    (has_any_of_or_self .uint8 1 2 (by decide) (by decide)).1.mpr (by decide)⟩

/-- Claim C17: for every flag set `f` over an underlying type of width `w`,
`bit_negation()`, the complement of the promoted value converted back to the
underlying type, is the `w`-bit complement `2 ^ w - 1 - f.value()`, and
`flag_set(flag_set(f.bit_negation()).bit_negation())` has the value of `f`. -/
theorem bit_negation_involutive (value_type : integral_type) (f : flag_set)
    (hf : f.value < 2 ^ value_type.bits) :
    flag_set.bit_negation value_type f = 2 ^ value_type.bits - 1 - f.value
    ∧ flag_set.bit_negation value_type f < 2 ^ value_type.bits
    ∧ (∀ i, i < value_type.bits →
        (flag_set.bit_negation value_type f).testBit i = !(f.value.testBit i))
    ∧ (flag_set.of_value (flag_set.bit_negation value_type
          (flag_set.of_value (flag_set.bit_negation value_type f)))).value = f.value
    ∧ flag_set.eq value_type
        (flag_set.of_value (flag_set.bit_negation value_type
          (flag_set.of_value (flag_set.bit_negation value_type f)))) f = true := by
  have hpos : 0 < 2 ^ value_type.bits := by positivity
  have h1 := flag_set_bit_negation_eq value_type f hf
  have hlt : flag_set.bit_negation value_type f < 2 ^ value_type.bits := by omega
  have h2 := flag_set_bit_negation_eq value_type
    (flag_set.of_value (flag_set.bit_negation value_type f)) hlt
  have hval : (flag_set.of_value (flag_set.bit_negation value_type
      (flag_set.of_value (flag_set.bit_negation value_type f)))).value = f.value := by
    show flag_set.bit_negation value_type
      (flag_set.of_value (flag_set.bit_negation value_type f)) = f.value
    rw [h2]
    show 2 ^ value_type.bits - 1 - flag_set.bit_negation value_type f = f.value
    omega
  refine ⟨h1, hlt, ?_, hval, ?_⟩
  · intro i hi
    have hform : 2 ^ value_type.bits - 1 - f.value = 2 ^ value_type.bits - (f.value + 1) := by
      omega
    rw [h1, hform, Nat.testBit_two_pow_sub_succ hf]
    simp [hi]
  · unfold flag_set.eq
    rw [hval]
    exact beq_self_eq_true _

/-- Witness of claim C17: over `uint8_t` the negation of `0b00000101` is
`0b11111010`, and negating again gives `0b00000101`. -/
theorem bit_negation_involutive_witness :
    (flag_set.of_value 5).value < 2 ^ integral_type.uint8.bits
    ∧ flag_set.bit_negation .uint8 (flag_set.of_value 5) = 250
    ∧ (flag_set.of_value (flag_set.bit_negation .uint8
          (flag_set.of_value (flag_set.bit_negation .uint8 (flag_set.of_value 5))))).value
        = 5 :=
  ⟨by decide,
    (bit_negation_involutive .uint8 (flag_set.of_value 5) (by decide)).1.trans (by decide),
    (bit_negation_involutive .uint8 (flag_set.of_value 5) (by decide)).2.2.2.1⟩

/-- Claim C18: construction from a list of flags is order-independent: for
every non-empty list of flags and every permutation of it, the variadic
constructor gives flag sets that compare equal under `operator==` and not
unequal under `operator!=`; `operator==` holds iff the underlying values are
equal, and `operator!=` is its negation. -/
theorem of_flags_order_independent (value_type : integral_type) (flags₁ flags₂ : List Nat)
    (hperm : flags₁.Perm flags₂) (hne : flags₁ ≠ [])
    (hrange : ∀ f ∈ flags₁, f < 2 ^ value_type.bits) :
    flag_set.eq value_type (flag_set.of_flags value_type flags₁)
        (flag_set.of_flags value_type flags₂) = true
    ∧ flag_set.ne value_type (flag_set.of_flags value_type flags₁)
        (flag_set.of_flags value_type flags₂) = false
    ∧ (flag_set.of_flags value_type flags₁).value = (flag_set.of_flags value_type flags₂).value
    ∧ (flag_set.of_flags value_type flags₁).value = flags₁.foldr (fun a b => a ||| b) 0
    ∧ (∀ x y : flag_set, x.value < 2 ^ value_type.bits → y.value < 2 ^ value_type.bits →
        (flag_set.eq value_type x y = true ↔ x.value = y.value))
    ∧ (∀ x y : flag_set, flag_set.ne value_type x y = !(flag_set.eq value_type x y)) := by
  have hne₂ : flags₂ ≠ [] := by
    intro h
    rw [h] at hperm
    exact hne hperm.eq_nil
  have hrange₂ : ∀ f ∈ flags₂, f < 2 ^ value_type.bits :=
    fun f hf => hrange f (hperm.mem_iff.mpr hf)
  have h₁ := flag_set_of_flags_value value_type flags₁ hne hrange
  have h₂ := flag_set_of_flags_value value_type flags₂ hne₂ hrange₂
  have hval : (flag_set.of_flags value_type flags₁).value
      = (flag_set.of_flags value_type flags₂).value := by
    rw [h₁, h₂, foldr_or_perm flags₁ flags₂ hperm]
  have heq : flag_set.eq value_type (flag_set.of_flags value_type flags₁)
      (flag_set.of_flags value_type flags₂) = true := by
    unfold flag_set.eq
    rw [hval]
    exact beq_self_eq_true _
  refine ⟨heq, ?_, hval, h₁, fun x y hx hy => flag_set_eq_iff value_type x y hx hy,
    fun x y => rfl⟩
  unfold flag_set.ne
  rw [heq]
  rfl

/-- Witness of claim C18: over `uint8_t`, `flag_set{1, 4}` and `flag_set{4, 1}`
compare equal. -/
theorem of_flags_order_independent_witness :
    [1, 4].Perm [4, 1]
    ∧ ([1, 4] : List Nat) ≠ []
    ∧ (∀ f ∈ ([1, 4] : List Nat), f < 2 ^ integral_type.uint8.bits)
    ∧ flag_set.eq .uint8 (flag_set.of_flags .uint8 [1, 4]) (flag_set.of_flags .uint8 [4, 1])
      = true :=
  ⟨List.Perm.swap 4 1 [], by decide, by decide,
    (of_flags_order_independent .uint8 [1, 4] [4, 1] (List.Perm.swap 4 1 []) (by decide)
      (by decide)).1⟩

/-- Claim C15: for every flag set value `v` over an unsigned underlying type
and every flag with a non-zero mask, `get<flag>()` returns
`(v AND mask) >> ctz(mask)`, where `ctz(mask)` is the index of the lowest set
bit of the mask; for a single-bit mask `2 ^ k` this is `1` if bit `k` of `v` is
set and `0` otherwise, and for the mask `0b0110` it is `(v AND 6) >> 1`, a
value in `0 .. 3`. -/
theorem get_extracts_field (value_type : integral_type)
    (hunsigned : value_type.is_signed = false) (v mask fuel : Nat)
    (hv : v < 2 ^ value_type.bits) (hmask : mask < 2 ^ value_type.bits) (hne : mask ≠ 0)
    (hfuel : value_type.bits ≤ fuel) :
    (∃ ctz, ctz < value_type.bits ∧ mask.testBit ctz = true
        ∧ (∀ i, i < ctz → mask.testBit i = false)
        ∧ flag_set.get value_type fuel ⟨v⟩ mask = some ((v &&& mask) >>> ctz))
    ∧ (∀ k, k < value_type.bits →
        flag_set.get value_type fuel ⟨v⟩ (2 ^ k)
          = some (if v.testBit k = true then 1 else 0))
    ∧ flag_set.get value_type fuel ⟨v⟩ 0b0110 = some ((v &&& 6) >>> 1)
    ∧ (v &&& 6) >>> 1 < 4 := by
  refine ⟨?_, ?_, ?_, ?_⟩
  · obtain ⟨c, hc, hlow⟩ := exists_lowest_set_bit mask hne
    exact ⟨c, testBit_lt_of_lt_two_pow mask c _ hmask hc, hc, hlow,
      get_unsigned_eq value_type hunsigned v mask fuel c hv hmask hfuel hc hlow⟩
  · intro k hk
    have hlt : 2 ^ k < 2 ^ value_type.bits := Nat.pow_lt_pow_right (by decide) hk
    have hlow : ∀ i, i < k → (2 ^ k).testBit i = false := by
      intro i hi
      exact Nat.testBit_two_pow_of_ne (by omega)
    rw [get_unsigned_eq value_type hunsigned v (2 ^ k) fuel k hv hlt hfuel
      Nat.testBit_two_pow_self hlow, and_two_pow_eq]
    have hpk : 0 < 2 ^ k := by positivity
    by_cases hb : v.testBit k = true
    · rw [if_pos hb, if_pos hb, Nat.shiftRight_eq_div_pow, Nat.div_self hpk]
    · rw [if_neg hb, if_neg hb, Nat.zero_shiftRight]
  · have h6 : 6 < 2 ^ value_type.bits := by cases value_type <;> decide
    have hlow : ∀ i, i < 1 → (6 : Nat).testBit i = false := by
      intro i hi
      obtain rfl : i = 0 := by omega
      decide
    exact get_unsigned_eq value_type hunsigned v 6 fuel 1 hv h6 hfuel (by decide) hlow
  · have hle : v &&& 6 ≤ 6 := Nat.and_le_right
    rw [Nat.shiftRight_eq_div_pow]
    omega

/-- Witness of claim C15: over `uint8_t`, with `v = 0b10101100`, the field of
the mask `0b0110` is `(v AND 6) >> 1 = 2`. -/
theorem get_extracts_field_witness :
    integral_type.uint8.is_signed = false
    ∧ (0b10101100 : Nat) < 2 ^ integral_type.uint8.bits
    ∧ (0b0110 : Nat) < 2 ^ integral_type.uint8.bits
    ∧ (0b0110 : Nat) ≠ 0
    ∧ integral_type.uint8.bits ≤ 8
    ∧ flag_set.get .uint8 8 ⟨0b10101100⟩ 0b0110 = some 2 :=
  ⟨rfl, by decide, by decide, by decide, by decide,
    (get_extracts_field .uint8 rfl 0b10101100 0b0110 8 (by decide) (by decide) (by decide)
      (by decide)).2.2.1.trans (by decide)⟩

/-- Claim C20: the loop of `count_trailing_zeros` terminates for every non-zero
mask: it needs exactly `c` iterations, where `c ≤ width - 1` is the index of the
lowest set bit, and returns `c`; on the mask `0` it never terminates. `get`
calls it only when `mask AND (mask - 1)` is non-zero, which implies that the
mask is non-zero; on the mask `0` `get` takes the other branch and returns `0`;
so `get` returns for every mask. -/
theorem count_trailing_zeros_terminates (value_type : integral_type) (mask : Nat)
    (hmask : mask < 2 ^ value_type.bits) :
    (mask ≠ 0 → ∃ c, c ≤ value_type.bits - 1 ∧ mask.testBit c = true
        ∧ (∀ i, i < c → mask.testBit i = false)
        ∧ (∀ fuel, c < fuel → flag_set.count_trailing_zeros value_type fuel mask = some c)
        ∧ (∀ fuel, fuel ≤ c → flag_set.count_trailing_zeros value_type fuel mask = none))
    ∧ (∀ fuel, flag_set.count_trailing_zeros value_type fuel 0 = none)
    ∧ (to_promoted value_type mask
          &&& minus_one (promoted value_type) (to_promoted value_type mask) ≠ 0 →
        mask ≠ 0)
    ∧ (∀ (self : flag_set) (fuel : Nat), flag_set.get value_type fuel self 0 = some 0)
    ∧ (∀ (self : flag_set) (fuel : Nat), value_type.bits ≤ fuel →
        (flag_set.get value_type fuel self mask).isSome = true) := by
  refine ⟨count_trailing_zeros_spec value_type mask hmask,
    fun fuel => ctz_loop_zero value_type fuel 0,
    get_cond_ne_zero value_type mask, fun self fuel => ?_,
    fun self fuel hfuel => get_isSome value_type self mask fuel hmask hfuel⟩
  unfold flag_set.get
  simp only [to_promoted_zero, Nat.zero_and, Nat.and_zero, ne_eq, not_true_eq_false,
    if_false]

/-- Witness of claim C20: over `int8_t` the loop on the mask `0x80` returns `7`
after 7 iterations (8 evaluations of its condition) and not earlier. -/
theorem count_trailing_zeros_terminates_witness :
    (0x80 : Nat) < 2 ^ integral_type.int8.bits
    ∧ (∃ c, c ≤ integral_type.int8.bits - 1 ∧ (0x80 : Nat).testBit c = true
        ∧ (∀ i, i < c → (0x80 : Nat).testBit i = false)
        ∧ (∀ fuel, c < fuel → flag_set.count_trailing_zeros .int8 fuel 0x80 = some c)
        ∧ (∀ fuel, fuel ≤ c → flag_set.count_trailing_zeros .int8 fuel 0x80 = none))
    ∧ flag_set.count_trailing_zeros .int8 8 0x80 = some 7
    ∧ flag_set.count_trailing_zeros .int8 7 0x80 = none :=
  ⟨by decide,
    (count_trailing_zeros_terminates .int8 0x80 (by decide)).1 (by decide),
    by decide, by decide⟩

end ktl
